import Mathlib

/-!
# Verification of the chol `builder.h` build-cache and incremental build driver

This file is a shallow embedding of the build-cache ("Cache Store"), the
staleness check ("Staleness Oracle") and the incremental build driver
(`build_app`) from `src/builder.h` of the chol header-only library
collection, together with the filesystem helpers from the bundled `fs.h`
(`fs_ext`, `fs_replace_ext`, `fs_join_path`, `fs_time`) that they use.

Machine integers (`int64_t` timestamps) are modelled as `Int`; all theorems
that depend on concrete timestamp values restrict them to the `int64_t`
range where the C code's arithmetic is defined.  File contents are modelled
as `List Char` (the cache file written by `build_cache_save` never contains
NUL bytes).  Fatal conditions (`LOG_FATAL`, `assert`) abort the process in
C; they are modelled with `Except`/`Option` error results.
-/

deriving instance DecidableEq for Except

/-- One entry of the build cache: `build_cache_item_t` from `builder.h`
(`char *path; int64_t mtime;`). -/
structure build_cache_item_t where
  path  : String
  mtime : Int
deriving DecidableEq, Repr

/-- The build cache `build_cache_t`: a growable array of items, modelled as
a list (the `count`/`size` capacity bookkeeping of the C struct only
manages reallocation and is not observable). -/
abbrev build_cache_t := List build_cache_item_t

/-- `build_cache_get` from `builder.h`: linear scan for the first item whose
path compares equal (`strcmp == 0`); returns the sentinel `-1` when the path
is absent. -/
def build_cache_get (c : build_cache_t) (path : String) : Int :=
  match c with
  | [] => -1
  | item :: rest => if item.path = path then item.mtime else build_cache_get rest path

/-- `build_cache_set` from `builder.h`: linear scan; overwrite the `mtime` of
the first item whose path matches, else append a fresh item at the end
(`build_cache_add`). -/
def build_cache_set (c : build_cache_t) (path : String) (mtime : Int) : build_cache_t :=
  match c with
  | [] => [⟨path, mtime⟩]
  | item :: rest =>
      if item.path = path then ⟨item.path, mtime⟩ :: rest
      else item :: build_cache_set rest path mtime

/-- The filesystem as seen by the builder: directory listings (the sequence
of entry names produced by `fs_dir_open`/`fs_dir_next`, i.e. the
`FOREACH_IN_DIR` iteration) and per-path modification times (`fs_time`).
A missing key models the corresponding OS call failing (`opendir`/`stat`
returning an error). -/
structure Filesystem where
  dirs   : List (String × List String)
  mtimes : List (String × Int)
deriving DecidableEq

/-- `fs_dir_open` + iteration: the listing of a directory, or `none` when the
directory cannot be opened. -/
def Filesystem.openDir (fs : Filesystem) (path : String) : Option (List String) :=
  fs.dirs.lookup path

/-- `fs_time path &m NULL` from `fs.h`: `some t` writes `t` to `*m` and
returns 0; `none` models the `stat` failure path which returns `-1`
WITHOUT writing to `*m`. -/
def Filesystem.fs_time (fs : Filesystem) (path : String) : Option Int :=
  fs.mtimes.lookup path

/-- `build_cache_update` from `builder.h`:

    int64_t m_now, m_cached = build_cache_get(c, path);
    fs_time(path, &m_now, NULL);
    if (m_cached != m_now) { build_cache_set(c, path, m_now); return true; }
    else return false;

The return value of `fs_time` is ignored by the C code, so when the stat
fails, `m_now` keeps its indeterminate (uninitialized) value; the parameter
`undef` models that indeterminate value.  When the stat succeeds, the
result does not depend on `undef`. -/
def build_cache_update (fs : Filesystem) (undef : Int) (c : build_cache_t)
    (path : String) : Bool × build_cache_t :=
  let m_cached := build_cache_get c path
  let m_now := (fs.fs_time path).getD undef
  if m_cached ≠ m_now then (true, build_cache_set c path m_now) else (false, c)

/-- Decimal digit character, as produced by `fprintf` `%llu`. -/
def digitChar (d : Nat) : Char := Char.ofNat (48 + d)

/-- The decimal rendering loop, with explicit fuel to keep the recursion
structural (the fuel never runs out when it starts at the number itself:
dividing by 10 shrinks faster than the fuel). -/
def digits_go : Nat → Nat → List Char
  | 0, n => [digitChar (n % 10)]
  | Nat.succ f, n =>
      if n < 10 then [digitChar n] else digits_go f (n / 10) ++ [digitChar (n % 10)]

/-- The decimal rendering of a natural number (the digit sequence printed by
`fprintf "%llu"`), most significant digit first. -/
def natToDigits (n : Nat) : List Char := digits_go n n

/-- The character sequence `fprintf(f, "%llu", (unsigned long long)m)`
produces for an `int64_t` value `m`: the value is converted to
`unsigned long long` (reduction modulo 2^64) and printed in decimal. -/
def show_ull (m : Int) : List Char := natToDigits ((m % (2 : Int) ^ 64).toNat)

/-- The line `build_cache_save` writes for one cache item:
`fprintf(f, "\x22%s\x22 %llu\n", path, (unsigned long long)mtime)`. -/
def save_line (item : build_cache_item_t) : List Char :=
  '"' :: item.path.data ++ '"' :: ' ' :: show_ull item.mtime ++ ['\n']

/-- `build_cache_save` from `builder.h`: the byte content written to the
cache file — one `save_line` per item, in order.  (The C function returns
`-1` when the file cannot be opened for writing, in which case `build_app`
aborts fatally; the content itself is modelled here.) -/
def build_cache_save (c : build_cache_t) : List Char :=
  (c.map save_line).flatten

/-- One `fgets(line, PATH_MAX, f)` read (PATH_MAX = 1024 on the build
platforms): up to 1023 characters, stopping after the first newline. -/
def take_line : Nat → List Char → List Char
  | 0, _ => []
  | _, [] => []
  | Nat.succ n, ch :: rest => if ch = '\n' then [ch] else ch :: take_line n rest

/-- The trailing-newline strip in `build_cache_load`:
`if (line[line_len - 1] == '\n') line[line_len - 1] = '\0';`. -/
def strip_nl (line : List Char) : List Char :=
  if line.getLast? = some '\n' then line.dropLast else line

/-- The closing-quote scan of `build_cache_load`
(`for (; line[len + 1] != '\x22'; ++len) if (line[len + 1] == 0) return -1;`):
given the characters after the opening quote, the characters before the
first `"` — or `none` when the end of the line is reached first. -/
def scan_to_quote : List Char → Option (List Char)
  | [] => none
  | ch :: rest => if ch = '"' then some [] else (scan_to_quote rest).map (ch :: ·)

/-- The digit-accumulation loop of `atoll`/`strtoll`. -/
def parse_digits : List Char → Nat → Nat
  | [], acc => acc
  | ch :: rest, acc =>
      if ch.isDigit then parse_digits rest (acc * 10 + (ch.toNat - 48)) else acc

/-- The C `isspace` classification used by `atoll`. -/
def isspace_c (ch : Char) : Bool :=
  ch = ' ' || ch = '\t' || ch = '\n' || ch = '\x0b' || ch = '\x0c' || ch = '\r'

/-- `atoll` from libc as used by `build_cache_load`: skip `isspace`
characters, optional sign, then decimal digits (0 when there are none).
Modelled without the `long long` overflow (which is undefined behaviour in
C); all theorems below only apply it to values in the `int64_t` range. -/
def atoll (s : List Char) : Int :=
  match s.dropWhile isspace_c with
  | [] => 0
  | ch :: rest =>
      if ch = '-' then -(parse_digits rest 0 : Int)
      else if ch = '+' then (parse_digits rest 0 : Int)
      else (parse_digits (ch :: rest) 0 : Int)

/-- Parsing of one `fgets` chunk by the loop body of `build_cache_load`:
strip a trailing newline; fail (`return -1`) unless the line starts with a
double quote; scan for the closing quote, failing at end of line; the path
is the text between the quotes and the timestamp is `atoll(line + len + 3)`
(the text after the closing quote and the separating space). -/
def parse_line (chunk : List Char) : Option (String × Int) :=
  let line := strip_nl chunk
  match line with
  | [] => none
  | ch :: rest =>
      if ch = '"' then
        match scan_to_quote rest with
        | none => none
        | some p => some (⟨p⟩, atoll (line.drop (p.length + 3)))
      else none

/-- The loop of `build_cache_load` over the content of an existing cache
file: repeatedly `fgets` a chunk and parse it, appending each parsed item
(`build_cache_add`) in order; `none` models the `return -1` on a malformed
line.  The explicit fuel keeps the recursion structural; it never runs out
when it starts at the content length, since each chunk consumes at least
one character. -/
def load_go : Nat → List Char → Option build_cache_t
  | _, [] => some []
  | 0, _ :: _ => none
  | Nat.succ f, ch :: rest =>
      let chunk := take_line 1023 (ch :: rest)
      match parse_line chunk with
      | none => none
      | some (p, m) => (load_go f ((ch :: rest).drop chunk.length)).map (⟨p, m⟩ :: ·)

/-- `build_cache_load` from `builder.h`: `none` file content models
`fopen` failing (file absent), which yields a successful, empty store;
otherwise the file content is parsed line by line. -/
def build_cache_load (file : Option (List Char)) : Option build_cache_t :=
  match file with
  | none => some []
  | some s => load_go s.length s

/-- The sequence of `fgets` chunks of a file content (the "lines" the load
loop iterates over), with the same fuel discipline as `load_go`. -/
def chunks_go : Nat → List Char → List (List Char)
  | _, [] => []
  | 0, _ :: _ => []
  | Nat.succ f, ch :: rest =>
      let chunk := take_line 1023 (ch :: rest)
      chunk :: chunks_go f ((ch :: rest).drop chunk.length)

/-- The `fgets` chunks of a file content. -/
def chunks (s : List Char) : List (List Char) := chunks_go s.length s

/-- `fs_ext` from `fs.h`: scan `path` from the last character down to index
1 (index 0 is never examined); on the first `.` found, the extension is the
text after it; otherwise the whole path is returned.  The scan over the
reversed character list: `acc` holds the characters already passed. -/
def fs_ext_go : List Char → List Char → Option (List Char)
  | [], _ => none
  | [_], _ => none
  | ch :: rest, acc => if ch = '.' then some acc else fs_ext_go rest (ch :: acc)

/-- `fs_ext` from `fs.h` (see `fs_ext_go`). -/
def fs_ext (path : String) : String :=
  match fs_ext_go path.data.reverse [] with
  | some e => ⟨e⟩
  | none => path

/-- The last-`.` search of `fs_replace_ext` (which, unlike `fs_ext`, also
examines index 0): on the reversed character list, the reversed stem. -/
def replace_ext_go : List Char → Option (List Char)
  | [] => none
  | ch :: rest => if ch = '.' then some rest else replace_ext_go rest

/-- `fs_replace_ext` from `fs.h`: truncate at the last `.` (keeping the
whole path when there is none) and append `.` and the new extension. -/
def fs_replace_ext (path new_ext : String) : String :=
  let stem := match replace_ext_go path.data.reverse with
              | some r => r.reverse
              | none => path.data
  ⟨stem ++ '.' :: new_ext.data⟩

/-- `FS_JOIN_PATH(a, b)` = `fs_join_path(a, b, NULL)` from `fs.h` with the
Unix `PATH_SEP`. -/
def fs_join_path (a b : String) : String := a ++ "/" ++ b

/-- The externally observable actions of a `build_app` invocation, in
order: per-file compile commands (the `CMD` in `build_file`), the final
link command (the `COMPILE` in `build_app`), rewriting the persisted cache
file (`build_cache_save`, with the store it persists), and the
`LOG_INFO("Nothing to rebuild")` message.  The default-empty `CARGS` and
`CLIBS` macros contribute no arguments. -/
inductive BuildEvent where
  | compileCmd (args : List String)
  | linkCmd (args : List String)
  | cacheSave (c : build_cache_t)
  | info (msg : String)
deriving DecidableEq, Repr

/-- The ways a `build_app` invocation aborts: `LOG_FATAL` (with its
message), or the `assert(o_files_count < 128)` in the source pass firing. -/
inductive BuildErr where
  | fatal (msg : String)
  | assertFail
deriving DecidableEq, Repr

/-- `build_app_config_t` from `builder.h` (`srcs_count` is the length of
`srcs`). -/
structure build_app_config_t where
  src_ext    : String
  header_ext : String
  bin        : String
  out        : String
  srcs       : List String
  rebuild_all : Bool
deriving DecidableEq

/-- `build_file` from `builder.h`: derive the object path
(`fs_replace_ext(src_name, "o")` under `out_dir`) and the source path;
abort fatally when the source cannot be stat'd; compile When the cached
mtime differs from the on-disk mtime or a rebuild is forced, updating the
cache first.  Returns the updated cache, the events emitted, and the
object path `out` (always returned, compiled or not). -/
def build_file (fs : Filesystem) (cc : String) (c : build_cache_t)
    (out_dir src_dir src_name : String) (force_rebuild : Bool) :
    Except BuildErr (build_cache_t × List BuildEvent × String) :=
  let out_name := fs_replace_ext src_name "o"
  let out := fs_join_path out_dir out_name
  let src := fs_join_path src_dir src_name
  let m_cached := build_cache_get c src
  match fs.fs_time src with
  | none => .error (.fatal ("Could not get last modified time of " ++ src))
  | some m_now =>
      if m_cached ≠ m_now ∨ force_rebuild then
        .ok (build_cache_set c src m_now,
             [.compileCmd [cc, "-c", src, "-o", out]], out)
      else .ok (c, [], out)

/-- The header scan of `build_app` over one directory's entries: for every
entry whose `fs_ext` equals the configured header extension, compare the
cached and on-disk mtimes (fatal when the stat fails); on a difference,
set `rebuild_all` and update the cache entry. -/
def header_scan (fs : Filesystem) (header_ext dirPath : String) :
    List String → build_cache_t → Bool → Except BuildErr (build_cache_t × Bool)
  | [], c, ra => .ok (c, ra)
  | name :: rest, c, ra =>
      if fs_ext name = header_ext then
        let src := fs_join_path dirPath name
        let m_cached := build_cache_get c src
        match fs.fs_time src with
        | none => .error (.fatal ("Could not get last modified time of " ++ src))
        | some m_now =>
            if m_cached ≠ m_now then
              header_scan fs header_ext dirPath rest (build_cache_set c src m_now) true
            else header_scan fs header_ext dirPath rest c ra
      else header_scan fs header_ext dirPath rest c ra

/-- The source pass of `build_app` over one directory's entries: for every
entry whose `fs_ext` equals the configured source extension, check
`assert(o_files_count < sizeof(o_files)/sizeof(o_files[0]))` (the array
holds 128 slots), then `build_file` it and record its object path.
`ofs` accumulates the recorded object paths across directories; the
returned events are the ones emitted by this call. -/
def source_pass (fs : Filesystem) (cc src_ext bin dirPath : String) (ra : Bool) :
    List String → build_cache_t → List String →
    Except BuildErr (build_cache_t × List String × List BuildEvent)
  | [], c, ofs => .ok (c, ofs, [])
  | name :: rest, c, ofs =>
      if fs_ext name = src_ext then
        if 128 ≤ ofs.length then .error .assertFail
        else
          match build_file fs cc c bin dirPath name ra with
          | .error e => .error e
          | .ok (c1, evs1, out) =>
              match source_pass fs cc src_ext bin dirPath ra rest c1 (ofs ++ [out]) with
              | .error e => .error e
              | .ok (c2, ofs2, evs2) => .ok (c2, ofs2, evs1 ++ evs2)
      else source_pass fs cc src_ext bin dirPath ra rest c ofs

/-- The per-directory loop of `build_app`: open the directory (fatal on
failure), run the header scan, then the source pass, then the remaining
directories.  The `rebuild_all` flag and the recorded object paths thread
through; the events of all directories are concatenated in order. -/
def build_app_dirs (fs : Filesystem) (cc : String) (cfg : build_app_config_t) :
    List String → build_cache_t → Bool → List String →
    Except BuildErr (build_cache_t × Bool × List String × List BuildEvent)
  | [], c, ra, ofs => .ok (c, ra, ofs, [])
  | d :: rest, c, ra, ofs =>
      match fs.openDir d with
      | none => .error (.fatal ("Failed to open directory " ++ d))
      | some entries =>
          match header_scan fs cfg.header_ext d entries c ra with
          | .error e => .error e
          | .ok (c1, ra1) =>
              match source_pass fs cc cfg.src_ext cfg.bin d ra1 entries c1 ofs with
              | .error e => .error e
              | .ok (c2, ofs2, evs) =>
                  match build_app_dirs fs cc cfg rest c2 ra1 ofs2 with
                  | .error e => .error e
                  | .ok (c3, ra3, ofs3, evs') => .ok (c3, ra3, ofs3, evs ++ evs')

/-- `build_app` from `builder.h`, with a caller-supplied cache store `c`
(the `c != NULL` case; the `NULL` case loads the store from the cache file
and then proceeds identically).  The initial `fs_exists`/`fs_create_dir`
on the binary directory is omitted: it touches neither the cache nor any
command.  After the directory loop: when no object path was recorded, log
"Nothing to rebuild"; otherwise persist the cache (`build_cache_save`,
fatal on failure — the success case is modelled) and then invoke the link
command `COMPILE(compiler, o_files, o_files_count, "-o", config->out)`. -/
def build_app (fs : Filesystem) (compiler : String) (cfg : build_app_config_t)
    (c : build_cache_t) : Except BuildErr (build_cache_t × List BuildEvent) :=
  match build_app_dirs fs compiler cfg cfg.srcs c cfg.rebuild_all [] with
  | .error e => .error e
  | .ok (cf, _, ofs, evs) =>
      if ofs.isEmpty then .ok (cf, evs ++ [.info "Nothing to rebuild"])
      else .ok (cf, evs ++ [.cacheSave cf,
                            .linkCmd (compiler :: ofs ++ ["-o", cfg.out])])

/-- The object paths the source pass records for one directory's entries:
one per entry with the configured source extension, in iteration order. -/
def objs_of_entries (bin se : String) (entries : List String) : List String :=
  (entries.filter (fun n => fs_ext n = se)).map
    (fun n => fs_join_path bin (fs_replace_ext n "o"))

/-- The number of source-extension entries in one directory listing. -/
def src_count (se : String) (entries : List String) : Nat :=
  (entries.filter (fun n => fs_ext n = se)).length

/-- The object paths `build_app` records for a list of directories: one per
entry with the configured source extension, in iteration order. -/
def expected_objs (fs : Filesystem) (cfg : build_app_config_t)
    (ds : List String) : List String :=
  ds.flatMap (fun d => objs_of_entries cfg.bin cfg.src_ext ((fs.openDir d).getD []))

/-- The total number of source-extension entries across a list of
directories. -/
def total_src_count (fs : Filesystem) (cfg : build_app_config_t)
    (ds : List String) : Nat :=
  (ds.map (fun d => src_count cfg.src_ext ((fs.openDir d).getD []))).sum

/-! ## Basic laws of the cache store -/

lemma cache_get_set_self (c : build_cache_t) (p : String) (t : Int) :
    build_cache_get (build_cache_set c p t) p = t := by
  induction c with
  | nil => simp [build_cache_set, build_cache_get]
  | cons item rest ih =>
      by_cases h : item.path = p
      · simp [build_cache_set, h, build_cache_get]
      · simp [build_cache_set, h, build_cache_get, ih]

lemma cache_get_not_mem (c : build_cache_t) (p : String)
    (h : p ∉ c.map build_cache_item_t.path) : build_cache_get c p = -1 := by
  induction c with
  | nil => rfl
  | cons item rest ih =>
      simp only [List.map_cons, List.mem_cons] at h
      push_neg at h
      rw [build_cache_get, if_neg (Ne.symm h.1)]
      exact ih h.2

lemma cache_set_paths_mem (c : build_cache_t) (p : String) (t : Int)
    (h : p ∈ c.map build_cache_item_t.path) :
    (build_cache_set c p t).map build_cache_item_t.path =
      c.map build_cache_item_t.path := by
  induction c with
  | nil => simp at h
  | cons item rest ih =>
      by_cases hp : item.path = p
      · simp [build_cache_set, hp]
      · have hmem : p ∈ rest.map build_cache_item_t.path := by
          simp only [List.map_cons, List.mem_cons] at h
          rcases h with h | h
          · exact absurd h.symm hp
          · exact h
        simp [build_cache_set, hp, ih hmem]

lemma cache_set_paths_not_mem (c : build_cache_t) (p : String) (t : Int)
    (h : p ∉ c.map build_cache_item_t.path) :
    (build_cache_set c p t).map build_cache_item_t.path =
      c.map build_cache_item_t.path ++ [p] := by
  induction c with
  | nil => simp [build_cache_set]
  | cons item rest ih =>
      simp only [List.map_cons, List.mem_cons] at h
      push_neg at h
      simp [build_cache_set, Ne.symm h.1, ih h.2]

lemma cache_set_nodup (c : build_cache_t) (p : String) (t : Int)
    (h : (c.map build_cache_item_t.path).Nodup) :
    ((build_cache_set c p t).map build_cache_item_t.path).Nodup := by
  by_cases hp : p ∈ c.map build_cache_item_t.path
  · rw [cache_set_paths_mem c p t hp]; exact h
  · rw [cache_set_paths_not_mem c p t hp]
    simp [List.nodup_append, h, hp]

lemma cache_set_set_same (c : build_cache_t) (p : String) (t1 t2 : Int) :
    build_cache_set (build_cache_set c p t1) p t2 = build_cache_set c p t2 := by
  induction c with
  | nil => simp [build_cache_set]
  | cons item rest ih =>
      by_cases hp : item.path = p
      · simp [build_cache_set, hp]
      · simp [build_cache_set, hp, ih]

/-! ## Claims C4, C6, C7, C8 -/

/-- C4: contrary to the spec, `build_cache_update` does NOT fail fatally
when the modification-time query for the path fails.  The C code ignores
`fs_time`'s return value (`fs_time(path, &m_now, NULL);` — and `fs_time`
itself returns `-1` without writing `*m_now` and without aborting), so on
a stat failure the comparison uses the uninitialized `m_now` (modelled by
the `undef` parameter) and the call proceeds with an outcome that depends
on that indeterminate value: with residue 0 it reports "changed" and
inserts a bogus entry, with residue -1 it reports "unchanged".  Every
other `fs_time` call site in the repository checks the result and calls
`LOG_FATAL`. -/
theorem c4_update_ignores_stat_failure :
    (Filesystem.fs_time ⟨[], []⟩ "ghost.c" = none) ∧
    build_cache_update ⟨[], []⟩ 0 [] "ghost.c" = (true, [⟨"ghost.c", 0⟩]) ∧
    build_cache_update ⟨[], []⟩ (-1) [] "ghost.c" = (false, []) := by decide

/-- C7: for a path not present in the store, `build_cache_get` returns the
NOT_FOUND sentinel `-1`; and immediately after `build_cache_set c path t`,
`build_cache_get` at that path returns exactly `t`. -/
theorem c7_get_set_spec (c : build_cache_t) (path : String) (t : Int) :
    (path ∉ c.map build_cache_item_t.path → build_cache_get c path = -1) ∧
    build_cache_get (build_cache_set c path t) path = t :=
  ⟨cache_get_not_mem c path, cache_get_set_self c path t⟩

theorem c7_get_set_spec_witness :
    build_cache_get [⟨"x", 3⟩] "y" = -1 ∧
    build_cache_get (build_cache_set [⟨"x", 3⟩] "y" 9) "y" = 9 :=
  ⟨(c7_get_set_spec [⟨"x", 3⟩] "y" 9).1 (by decide),
   (c7_get_set_spec [⟨"x", 3⟩] "y" 9).2⟩

/-- C8, counterexample to the claim as stated: the sentinel CAN equal a
real timestamp.  For a file whose on-disk modification time is exactly
`-1` (one second before the epoch; `st_mtime` is signed), the first
`build_cache_update` call for the untracked path returns false, not
true. -/
theorem c8_counterexample :
    (Filesystem.fs_time ⟨[], [("a.c", -1)]⟩ "a.c" = some (-1)) ∧
    "a.c" ∉ ([] : build_cache_t).map build_cache_item_t.path ∧
    build_cache_update ⟨[], [("a.c", -1)]⟩ 0 [] "a.c" = (false, []) := by decide

/-- C8 (amended): when the stat succeeds with on-disk time `t`,
`build_cache_update` returns true iff the cached value differs from `t`;
on true the store's entry for the path becomes `t`; on false the store is
completely unmutated; a first call for an untracked path returns true
PROVIDED the on-disk time is not itself the sentinel `-1`; and an
immediate second call for the unchanged file returns false. -/
theorem c8_update_spec (fs : Filesystem) (undef : Int) (c : build_cache_t)
    (path : String) (t : Int) (hstat : fs.fs_time path = some t) :
    ((build_cache_update fs undef c path).1 = true ↔ build_cache_get c path ≠ t) ∧
    ((build_cache_update fs undef c path).1 = true →
      (build_cache_update fs undef c path).2 = build_cache_set c path t) ∧
    ((build_cache_update fs undef c path).1 = false →
      (build_cache_update fs undef c path).2 = c) ∧
    (path ∉ c.map build_cache_item_t.path → t ≠ -1 →
      (build_cache_update fs undef c path).1 = true) ∧
    (∀ undef2, (build_cache_update fs undef2
      (build_cache_update fs undef c path).2 path).1 = false) := by
  have heq : build_cache_update fs undef c path =
      if build_cache_get c path ≠ t then (true, build_cache_set c path t)
      else (false, c) := by
    simp [build_cache_update, hstat]
  by_cases h : build_cache_get c path = t
  · rw [heq, if_neg (by simpa using h)]
    refine ⟨by simp [h], by simp, fun _ => rfl, fun hmem ht => ?_, fun undef2 => ?_⟩
    · have ht1 : t = -1 := by rw [← h, cache_get_not_mem c path hmem]
      exact absurd ht1 ht
    · simp [build_cache_update, hstat, h]
  · rw [heq, if_pos h]
    refine ⟨by simp [h], fun _ => rfl, by simp, fun _ _ => rfl, fun undef2 => ?_⟩
    simp [build_cache_update, hstat, cache_get_set_self]

theorem c8_update_spec_witness :
    (build_cache_update ⟨[], [("a.c", 7)]⟩ 0 [] "a.c").1 = true ∧
    (build_cache_update ⟨[], [("a.c", 7)]⟩ 5
      (build_cache_update ⟨[], [("a.c", 7)]⟩ 0 [] "a.c").2 "a.c").1 = false :=
  ⟨(c8_update_spec ⟨[], [("a.c", 7)]⟩ 0 [] "a.c" 7 (by decide)).2.2.2.1
      (by decide) (by decide),
   (c8_update_spec ⟨[], [("a.c", 7)]⟩ 0 [] "a.c" 7 (by decide)).2.2.2.2 5⟩

/-- C6, counterexample to the claim as stated: a store reachable through
`build_cache_load` can hold two entries with the same path.  Loading a
cache file whose lines repeat a path appends one entry per line with no
deduplication. -/
theorem c6_counterexample :
    build_cache_load (some ("\"a\" 1\n\"a\" 2\n".data)) =
      some [⟨"a", 1⟩, ⟨"a", 2⟩] ∧
    ¬ (([⟨"a", 1⟩, ⟨"a", 2⟩] : build_cache_t).map
        build_cache_item_t.path).Nodup := by decide

/-- C6 (amended): `build_cache_set` and `build_cache_update` preserve
path-uniqueness — `set` for a present path overwrites the existing entry's
timestamp in place (same path sequence, no second entry) and only the last
written timestamp is retained — but `build_cache_load` preserves it only
when the persisted file's lines carry pairwise distinct paths; a file with
duplicate path lines yields duplicate entries. -/
theorem c6_unique_paths (c : build_cache_t) (p : String) (t t1 t2 : Int)
    (h : (c.map build_cache_item_t.path).Nodup) :
    ((build_cache_set c p t).map build_cache_item_t.path).Nodup ∧
    (p ∈ c.map build_cache_item_t.path →
      (build_cache_set c p t).map build_cache_item_t.path =
        c.map build_cache_item_t.path) ∧
    build_cache_set (build_cache_set c p t1) p t2 = build_cache_set c p t2 ∧
    build_cache_get (build_cache_set c p t) p = t ∧
    (∀ fs undef, (((build_cache_update fs undef c p).2).map
      build_cache_item_t.path).Nodup) := by
  refine ⟨cache_set_nodup c p t h, cache_set_paths_mem c p t, cache_set_set_same c p t1 t2,
    cache_get_set_self c p t, fun fs undef => ?_⟩
  by_cases hc : build_cache_get c p ≠ (fs.fs_time p).getD undef
  · simp only [build_cache_update, if_pos hc]
    exact cache_set_nodup c p _ h
  · simp only [build_cache_update, if_neg hc]
    exact h

theorem c6_unique_paths_witness :
    ((build_cache_set [⟨"a", 1⟩] "a" 2).map build_cache_item_t.path).Nodup ∧
    build_cache_set (build_cache_set [⟨"a", 1⟩] "a" 2) "a" 3 =
      build_cache_set [⟨"a", 1⟩] "a" 3 :=
  ⟨(c6_unique_paths [⟨"a", 1⟩] "a" 2 2 3 (by decide)).1,
   (c6_unique_paths [⟨"a", 1⟩] "a" 9 2 3 (by decide)).2.2.1⟩

/-! ## Serialization round trip (claim C5) and load failure (claim C9) -/

lemma digitChar_facts (d : Nat) (h : d < 10) :
    (digitChar d).isDigit = true ∧ isspace_c (digitChar d) = false ∧
    digitChar d ≠ '-' ∧ digitChar d ≠ '+' ∧ digitChar d ≠ '\n' ∧
    digitChar d ≠ '"' := by
  interval_cases d <;> decide

lemma digitChar_toNat (d : Nat) (h : d < 10) : (digitChar d).toNat = 48 + d := by
  interval_cases d <;> decide

lemma digits_go_ne_nil (f n : Nat) : digits_go f n ≠ [] := by
  cases f with
  | zero => simp [digits_go]
  | succ f => unfold digits_go; split <;> simp

lemma digits_go_mem (f n : Nat) (ch : Char) (h : ch ∈ digits_go f n) :
    ∃ d, d < 10 ∧ ch = digitChar d := by
  induction f generalizing n with
  | zero =>
      simp [digits_go] at h
      exact ⟨n % 10, by omega, h⟩
  | succ f ih =>
      by_cases hn : n < 10
      · simp [digits_go, hn] at h
        exact ⟨n, hn, h⟩
      · simp only [digits_go, if_neg hn, List.mem_append, List.mem_singleton] at h
        rcases h with h | h
        · exact ih _ h
        · exact ⟨n % 10, by omega, h⟩

lemma digits_go_all_digit (f n : Nat) : ∀ ch ∈ digits_go f n, ch.isDigit = true :=
  fun ch h => by
    obtain ⟨d, hd, rfl⟩ := digits_go_mem f n ch h
    exact (digitChar_facts d hd).1

lemma parse_digits_append (l1 l2 : List Char) (acc : Nat)
    (h : ∀ ch ∈ l1, ch.isDigit = true) :
    parse_digits (l1 ++ l2) acc = parse_digits l2 (parse_digits l1 acc) := by
  induction l1 generalizing acc with
  | nil => rfl
  | cons ch rest ih =>
      have hd := h ch (by simp)
      simp [parse_digits, hd, ih _ (fun c hc => h c (by simp [hc]))]

lemma parse_digits_go_val (f n acc : Nat) (h : n ≤ f) :
    parse_digits (digits_go f n) acc = acc * 10 ^ (digits_go f n).length + n := by
  induction f generalizing n acc with
  | zero =>
      have hn : n = 0 := by omega
      subst hn
      simp [digits_go, parse_digits, (digitChar_facts 0 (by omega)).1,
        digitChar_toNat 0 (by omega)]
  | succ f ih =>
      by_cases hn : n < 10
      · simp [digits_go, hn, parse_digits, (digitChar_facts n hn).1,
          digitChar_toNat n hn]
      · simp only [digits_go, if_neg hn]
        rw [parse_digits_append _ _ _ (digits_go_all_digit f (n / 10))]
        rw [ih (n / 10) acc (by omega)]
        simp only [parse_digits, (digitChar_facts (n % 10) (by omega)).1,
          digitChar_toNat (n % 10) (by omega), if_true, List.length_append,
          List.length_cons, List.length_nil]
        rw [pow_succ, ← mul_assoc]
        omega

lemma atoll_natToDigits (n : Nat) : atoll (natToDigits n) = (n : Int) := by
  obtain ⟨ch, rest, heq⟩ : ∃ ch rest, digits_go n n = ch :: rest := by
    cases hd : digits_go n n with
    | nil => exact absurd hd (digits_go_ne_nil n n)
    | cons ch rest => exact ⟨ch, rest, rfl⟩
  obtain ⟨d, hd10, hch⟩ := digits_go_mem n n ch (by rw [heq]; simp)
  have hfacts := digitChar_facts d hd10
  have hval := parse_digits_go_val n n 0 (le_refl n)
  unfold atoll natToDigits
  rw [heq]
  subst hch
  rw [List.dropWhile_cons, hfacts.2.1]
  simp only [Bool.false_eq_true, if_false]
  rw [if_neg hfacts.2.2.1, if_neg hfacts.2.2.2.1]
  rw [heq] at hval
  simp only [zero_mul, zero_add] at hval
  rw [hval]

lemma digits_go_length_le (k f n : Nat) (hf : n ≤ f) (hk : 1 ≤ k)
    (h : n < 10 ^ k) : (digits_go f n).length ≤ k := by
  induction f generalizing n k with
  | zero => simpa [digits_go] using hk
  | succ f ih =>
      by_cases hn : n < 10
      · simpa [digits_go, hn] using hk
      · simp only [digits_go, if_neg hn, List.length_append, List.length_cons,
          List.length_nil]
        have hk2 : 2 ≤ k := by
          by_contra hlt
          have hk1 : k = 1 := by omega
          subst hk1
          simp at h
          omega
        have hpow : 10 ^ k = 10 ^ (k - 1) * 10 := by
          rw [← pow_succ]
          congr 1
          omega
        have hdiv : n / 10 < 10 ^ (k - 1) := by
          rw [hpow] at h
          omega
        have := ih (k - 1) (n / 10) (by omega) (by omega) hdiv
        omega

lemma scan_to_quote_append (p suffix : List Char) (h : '"' ∉ p) :
    scan_to_quote (p ++ '"' :: suffix) = some p := by
  induction p with
  | nil => simp [scan_to_quote]
  | cons ch rest ih =>
      simp only [List.mem_cons, not_or] at h
      simp [scan_to_quote, Ne.symm h.1, ih h.2]

lemma scan_to_quote_none_iff (l : List Char) : scan_to_quote l = none ↔ '"' ∉ l := by
  induction l with
  | nil => simp [scan_to_quote]
  | cons ch rest ih =>
      by_cases hc : ch = '"'
      · subst hc
        simp [scan_to_quote]
      · simp [scan_to_quote, hc, ih, Ne.symm hc]

lemma take_line_pos (n : Nat) (hn : 0 < n) (ch : Char) (rest : List Char) :
    1 ≤ (take_line n (ch :: rest)).length := by
  cases n with
  | zero => omega
  | succ n => unfold take_line; split <;> simp

lemma take_line_body (body r : List Char) (n : Nat) (hnl : '\n' ∉ body)
    (hlen : body.length < n) :
    take_line n (body ++ '\n' :: r) = body ++ ['\n'] := by
  induction body generalizing n with
  | nil =>
      cases n with
      | zero => simp at hlen
      | succ n => simp [take_line]
  | cons ch rest ih =>
      cases n with
      | zero => simp at hlen
      | succ n =>
          simp only [List.mem_cons, not_or] at hnl
          simp only [List.cons_append, take_line, if_neg (Ne.symm hnl.1), List.append_eq]
          rw [ih n hnl.2 (by simpa using hlen)]

lemma strip_nl_concat (body : List Char) : strip_nl (body ++ ['\n']) = body := by
  simp [strip_nl, List.getLast?_concat, List.dropLast_concat]

lemma parse_save_line (item : build_cache_item_t)
    (hq : '"' ∉ item.path.data) (hm0 : 0 ≤ item.mtime)
    (hm : item.mtime < 2 ^ 63) :
    parse_line (save_line item) = some (item.path, item.mtime) := by
  have hmod : item.mtime % (2 : Int) ^ 64 = item.mtime :=
    Int.emod_eq_of_lt hm0 (lt_trans hm (by norm_num))
  have hshow : show_ull item.mtime = natToDigits item.mtime.toNat := by
    unfold show_ull
    rw [hmod]
  have hline : save_line item =
      ('"' :: (item.path.data ++ '"' :: ' ' :: natToDigits item.mtime.toNat))
        ++ ['\n'] := by
    simp [save_line, hshow]
  have hstrip : strip_nl (save_line item) =
      '"' :: (item.path.data ++ '"' :: ' ' :: natToDigits item.mtime.toNat) := by
    rw [hline, strip_nl_concat]
  have hdrop : List.drop (item.path.data.length + 3)
      ('"' :: (item.path.data ++ '"' :: ' ' :: natToDigits item.mtime.toNat))
      = natToDigits item.mtime.toNat := by
    have hsplit : '"' :: (item.path.data ++ '"' :: ' ' :: natToDigits item.mtime.toNat)
        = ('"' :: item.path.data ++ ['"', ' ']) ++ natToDigits item.mtime.toNat := by
      simp
    have hlen3 : item.path.data.length + 3
        = ('"' :: item.path.data ++ ['"', ' ']).length := by
      simp only [List.length_append, List.length_cons, List.length_nil]
    rw [hsplit, hlen3, List.drop_left]
  simp only [parse_line, hstrip,
    scan_to_quote_append item.path.data (' ' :: natToDigits item.mtime.toNat) hq,
    if_true, hdrop, atoll_natToDigits, Int.toNat_of_nonneg hm0]

lemma load_go_step_none (f : Nat) (s : List Char) (hs : s ≠ [])
    (hp : parse_line (take_line 1023 s) = none) :
    load_go (f + 1) s = none := by
  cases s with
  | nil => exact absurd rfl hs
  | cons ch rest =>
      simp only [load_go]
      rw [hp]

lemma load_go_step_some (f : Nat) (s : List Char) (hs : s ≠ []) (p : String) (m : Int)
    (hp : parse_line (take_line 1023 s) = some (p, m)) :
    load_go (f + 1) s =
      (load_go f (s.drop (take_line 1023 s).length)).map (fun l => ⟨p, m⟩ :: l) := by
  cases s with
  | nil => exact absurd rfl hs
  | cons ch rest =>
      simp only [load_go]
      rw [hp]

lemma load_go_fuel_eq (f1 : Nat) : ∀ (f2 : Nat) (s : List Char),
    s.length ≤ f1 → s.length ≤ f2 → load_go f1 s = load_go f2 s := by
  induction f1 with
  | zero =>
      intro f2 s h1 _
      have hnil : s = [] := by
        cases s with
        | nil => rfl
        | cons ch rest => simp at h1
      subst hnil
      cases f2 <;> rfl
  | succ f1 ih =>
      intro f2 s h1 h2
      cases s with
      | nil => cases f2 <;> rfl
      | cons ch rest =>
          obtain ⟨f2', rfl⟩ : ∃ f2', f2 = f2' + 1 := by
            cases f2 with
            | zero => simp at h2
            | succ f2' => exact ⟨f2', rfl⟩
          have hchunk := take_line_pos 1023 (by omega) ch rest
          cases hp : parse_line (take_line 1023 (ch :: rest)) with
          | none => rw [load_go_step_none f1 _ (by simp) hp,
              load_go_step_none f2' _ (by simp) hp]
          | some pm =>
              obtain ⟨p, m⟩ := pm
              rw [load_go_step_some f1 _ (by simp) p m hp,
                load_go_step_some f2' _ (by simp) p m hp]
              congr 1
              apply ih
              · simp only [List.length_drop, List.length_cons] at *
                omega
              · simp only [List.length_drop, List.length_cons] at *
                omega

lemma load_go_prepend (body r : List Char) (p : String) (m : Int) (f : Nat)
    (hnl : '\n' ∉ body) (hlen : body.length < 1023)
    (hparse : parse_line (body ++ ['\n']) = some (p, m)) :
    load_go (f + 1) (body ++ '\n' :: r) =
      (load_go f r).map (fun l => ⟨p, m⟩ :: l) := by
  have hchunk : take_line 1023 (body ++ '\n' :: r) = body ++ ['\n'] :=
    take_line_body body r 1023 hnl hlen
  have hne : body ++ '\n' :: r ≠ [] := by simp
  rw [load_go_step_some f _ hne p m (by rw [hchunk]; exact hparse)]
  have hdrop : (body ++ '\n' :: r).drop (take_line 1023 (body ++ '\n' :: r)).length
      = r := by
    rw [hchunk]
    have hsplit : body ++ '\n' :: r = (body ++ ['\n']) ++ r := by simp
    rw [hsplit]
    exact List.drop_left _ _
  rw [hdrop]

/-- C5, counterexample to the claim as stated: the round trip fails for a
path containing a double quote, because `build_cache_save` does not escape
it — the store holding `(a"b, 5)` saves to the line `"a"b" 5`, which loads
back as the single pair `(a, 0)`. -/
theorem c5_counterexample :
    build_cache_load (some (build_cache_save [⟨"a\"b", 5⟩])) = some [⟨"a", 0⟩] ∧
    some [(⟨"a", 0⟩ : build_cache_item_t)] ≠
      some [(⟨"a\"b", 5⟩ : build_cache_item_t)] := by decide

/-- C5 (amended): `build_cache_save` followed by `build_cache_load`
reproduces exactly the same sequence of `(path, timestamp)` pairs — hence
the same set, independent of insertion order — for every store whose paths
contain no double quote and no newline and fit an `fgets` line buffer
(length at most 1000), and whose timestamps are nonnegative `int64_t`
values. -/
theorem c5_save_load_roundtrip (c : build_cache_t)
    (h : ∀ item ∈ c, '"' ∉ item.path.data ∧ '\n' ∉ item.path.data ∧
      item.path.data.length ≤ 1000 ∧ 0 ≤ item.mtime ∧ item.mtime < 2 ^ 63) :
    build_cache_load (some (build_cache_save c)) = some c := by
  show load_go (build_cache_save c).length (build_cache_save c) = some c
  induction c with
  | nil => rfl
  | cons item rest ih =>
      obtain ⟨hq, hnl, hplen, hm0, hm⟩ := h item (by simp)
      have hrest := ih (fun it hit => h it (List.mem_cons_of_mem _ hit))
      have hsave : build_cache_save (item :: rest)
          = save_line item ++ build_cache_save rest := by
        simp [build_cache_save]
      have hshowD : ∀ ch ∈ show_ull item.mtime, ∃ d, d < 10 ∧ ch = digitChar d :=
        fun ch hch => digits_go_mem _ _ ch hch
      have hDnl : '\n' ∉ show_ull item.mtime := by
        intro hch
        obtain ⟨d, hd, he⟩ := hshowD _ hch
        exact (digitChar_facts d hd).2.2.2.2.1 he.symm
      have hDlen : (show_ull item.mtime).length ≤ 19 := by
        have hmod : item.mtime % (2 : Int) ^ 64 = item.mtime :=
          Int.emod_eq_of_lt hm0 (lt_trans hm (by norm_num))
        have htn : item.mtime.toNat < 2 ^ 63 := by
          have h1 : (item.mtime.toNat : Int) < (2 : Int) ^ 63 := by
            rw [Int.toNat_of_nonneg hm0]
            exact hm
          exact_mod_cast h1
        unfold show_ull natToDigits
        rw [hmod]
        exact digits_go_length_le 19 _ _ (le_refl _) (by norm_num) (by
          calc item.mtime.toNat < 2 ^ 63 := htn
            _ < 10 ^ 19 := by norm_num)
      have hbody_shape : save_line item
          = ('"' :: item.path.data ++ '"' :: ' ' :: show_ull item.mtime) ++ ['\n'] := by
        simp [save_line]
      have hbody_nl : '\n' ∉ ('"' :: item.path.data ++ '"' :: ' ' :: show_ull item.mtime) := by
        intro hmem
        simp only [List.cons_append, List.mem_cons, List.mem_append] at hmem
        rcases hmem with h1 | h1 | h1 | h1 | h1 <;>
          first
          | exact hnl h1
          | exact hDnl h1
          | exact absurd h1 (by decide)
      have hbody_len : ('"' :: item.path.data ++ '"' :: ' ' :: show_ull item.mtime).length
          < 1023 := by
        simp only [List.length_cons, List.length_append]
        omega
      have hparse : parse_line (save_line item) = some (item.path, item.mtime) :=
        parse_save_line item hq hm0 hm
      rw [hsave, hbody_shape]
      have hassoc : (('"' :: item.path.data ++ '"' :: ' ' :: show_ull item.mtime) ++ ['\n'])
          ++ build_cache_save rest
          = ('"' :: item.path.data ++ '"' :: ' ' :: show_ull item.mtime)
            ++ '\n' :: build_cache_save rest := by
        simp
      rw [hassoc]
      have hlen_total :
          (('"' :: item.path.data ++ '"' :: ' ' :: show_ull item.mtime)
            ++ '\n' :: build_cache_save rest).length
          = (('"' :: item.path.data ++ '"' :: ' ' :: show_ull item.mtime).length
              + (build_cache_save rest).length) + 1 := by
        simp only [List.length_append, List.length_cons]
        omega
      rw [hlen_total]
      rw [load_go_prepend _ _ item.path item.mtime _ hbody_nl hbody_len
        (by rw [← hbody_shape]; exact hparse)]
      rw [load_go_fuel_eq _ (build_cache_save rest).length (build_cache_save rest)
        (by omega) (le_refl _)]
      rw [hrest]
      rfl

theorem c5_save_load_roundtrip_witness :
    build_cache_load (some (build_cache_save [⟨"src/a.c", 1000⟩, ⟨"b.h", 5⟩]))
      = some [⟨"src/a.c", 1000⟩, ⟨"b.h", 5⟩] :=
  c5_save_load_roundtrip [⟨"src/a.c", 1000⟩, ⟨"b.h", 5⟩] (by decide)

lemma chunks_go_step (f : Nat) (s : List Char) (hs : s ≠ []) :
    chunks_go (f + 1) s
      = take_line 1023 s :: chunks_go f (s.drop (take_line 1023 s).length) := by
  cases s with
  | nil => exact absurd rfl hs
  | cons ch rest => rfl

lemma load_go_none_iff (f : Nat) : ∀ s : List Char, s.length ≤ f →
    (load_go f s = none ↔ ∃ l ∈ chunks_go f s, parse_line l = none) := by
  induction f with
  | zero =>
      intro s h
      have hnil : s = [] := by
        cases s with
        | nil => rfl
        | cons ch rest => simp at h
      subst hnil
      simp [load_go, chunks_go]
  | succ f ih =>
      intro s h
      cases s with
      | nil => simp [load_go, chunks_go]
      | cons ch rest =>
          rw [chunks_go_step f _ (by simp)]
          cases hp : parse_line (take_line 1023 (ch :: rest)) with
          | none =>
              rw [load_go_step_none f _ (by simp) hp]
              simp [hp]
          | some pm =>
              obtain ⟨p, m⟩ := pm
              rw [load_go_step_some f _ (by simp) p m hp]
              have hlen : ((ch :: rest).drop (take_line 1023 (ch :: rest)).length).length
                  ≤ f := by
                have hpos := take_line_pos 1023 (by omega) ch rest
                simp only [List.length_drop, List.length_cons] at *
                omega
              simp only [Option.map_eq_none', List.mem_cons]
              rw [ih _ hlen]
              constructor
              · rintro ⟨l, hl, hpl⟩
                exact ⟨l, Or.inr hl, hpl⟩
              · rintro ⟨l, hl | hl, hpl⟩
                · rw [hl] at hpl
                  rw [hp] at hpl
                  exact Option.noConfusion hpl
                · exact ⟨l, hl, hpl⟩

lemma parse_line_none_iff (chunk : List Char) :
    parse_line chunk = none ↔
      ¬ ((strip_nl chunk).head? = some '"' ∧ '"' ∈ (strip_nl chunk).drop 1) := by
  cases hl : strip_nl chunk with
  | nil => simp [parse_line, hl]
  | cons ch rest =>
      by_cases hc : ch = '"'
      · subst hc
        cases hs : scan_to_quote rest with
        | none =>
            simp [parse_line, hl, hs, (scan_to_quote_none_iff rest).mp hs]
        | some p =>
            have hmem : '"' ∈ rest := by
              by_contra hh
              rw [(scan_to_quote_none_iff rest).mpr hh] at hs
              exact Option.noConfusion hs
            simp [parse_line, hl, hs, hmem]
      · simp [parse_line, hl, hc]

/-- C9: `build_cache_load` succeeds with an empty store when the cache file
does not exist; and for an existing file it fails exactly when some line
(an `fgets` read of the content) is malformed: after stripping the
trailing newline, the line does not begin with a double quote, or no
closing double quote occurs before the end of the line. -/
theorem c9_load_error_iff_malformed :
    build_cache_load none = some [] ∧
    ∀ s : List Char, (build_cache_load (some s) = none ↔
      ∃ line ∈ chunks s, ¬ ((strip_nl line).head? = some '"' ∧
        '"' ∈ (strip_nl line).drop 1)) := by
  refine ⟨rfl, fun s => ?_⟩
  show load_go s.length s = none ↔ _
  rw [load_go_none_iff s.length s (le_refl _)]
  unfold chunks
  exact ⟨fun ⟨l, hl, hp⟩ => ⟨l, hl, (parse_line_none_iff l).mp hp⟩,
    fun ⟨l, hl, hp⟩ => ⟨l, hl, (parse_line_none_iff l).mpr hp⟩⟩

/-! ## The incremental build driver loops -/

lemma build_file_stat_none (fs : Filesystem) (cc : String) (c : build_cache_t)
    (out_dir src_dir src_name : String) (force : Bool)
    (h : fs.fs_time (fs_join_path src_dir src_name) = none) :
    build_file fs cc c out_dir src_dir src_name force =
      .error (.fatal ("Could not get last modified time of "
        ++ fs_join_path src_dir src_name)) := by
  simp [build_file, h]

lemma build_file_stat_some (fs : Filesystem) (cc : String) (c : build_cache_t)
    (out_dir src_dir src_name : String) (force : Bool) (t : Int)
    (h : fs.fs_time (fs_join_path src_dir src_name) = some t) :
    build_file fs cc c out_dir src_dir src_name force =
      (if build_cache_get c (fs_join_path src_dir src_name) ≠ t ∨ force then
        .ok (build_cache_set c (fs_join_path src_dir src_name) t,
             [.compileCmd [cc, "-c", fs_join_path src_dir src_name, "-o",
                fs_join_path out_dir (fs_replace_ext src_name "o")]],
             fs_join_path out_dir (fs_replace_ext src_name "o"))
      else .ok (c, [], fs_join_path out_dir (fs_replace_ext src_name "o"))) := by
  simp [build_file, h]

lemma source_pass_force (fs : Filesystem) (cc se bin d : String) :
    ∀ (entries : List String) (c : build_cache_t) (ofs : List String)
      (c' : build_cache_t) (ofs' : List String) (evs' : List BuildEvent),
    source_pass fs cc se bin d true entries c ofs = .ok (c', ofs', evs') →
    ∀ name ∈ entries, fs_ext name = se →
      BuildEvent.compileCmd [cc, "-c", fs_join_path d name, "-o",
        fs_join_path bin (fs_replace_ext name "o")] ∈ evs' := by
  intro entries
  induction entries with
  | nil =>
      intro c ofs c' ofs' evs' h name hmem
      simp at hmem
  | cons nm rest ih =>
      intro c ofs c' ofs' evs' h name hmem hext
      by_cases hn : fs_ext nm = se
      · simp only [source_pass, if_pos hn] at h
        by_cases ha : 128 ≤ ofs.length
        · rw [if_pos ha] at h
          simp at h
        · rw [if_neg ha] at h
          cases hstat : fs.fs_time (fs_join_path d nm) with
          | none =>
              rw [build_file_stat_none fs cc c bin d nm true hstat] at h
              simp at h
          | some t =>
              simp only [build_file_stat_some fs cc c bin d nm true t hstat,
                eq_self_iff_true, or_true, if_true] at h
              cases hsp : source_pass fs cc se bin d true rest
                  (build_cache_set c (fs_join_path d nm) t)
                  (ofs ++ [fs_join_path bin (fs_replace_ext nm "o")]) with
              | error e =>
                  rw [hsp] at h
                  simp at h
              | ok triple =>
                  obtain ⟨c2, ofs2, evs2⟩ := triple
                  rw [hsp] at h
                  simp only [Except.ok.injEq, Prod.mk.injEq] at h
                  obtain ⟨-, -, hevs⟩ := h
                  rw [← hevs]
                  rcases List.mem_cons.mp hmem with rfl | hmem'
                  · exact List.mem_append_left _ (by simp)
                  · exact List.mem_append_right _
                      (ih _ _ _ _ _ hsp name hmem' hext)
      · rw [source_pass] at h
        rw [if_neg hn] at h
        rcases List.mem_cons.mp hmem with rfl | hmem'
        · exact absurd hext hn
        · exact ih _ _ _ _ _ h name hmem' hext

lemma build_file_ok (fs : Filesystem) (cc : String) (c : build_cache_t)
    (out_dir src_dir src_name : String) (force : Bool)
    (c1 : build_cache_t) (evs1 : List BuildEvent) (out : String)
    (h : build_file fs cc c out_dir src_dir src_name force = .ok (c1, evs1, out)) :
    out = fs_join_path out_dir (fs_replace_ext src_name "o") ∧
    (evs1 = [] ∨ evs1 = [BuildEvent.compileCmd [cc, "-c", fs_join_path src_dir src_name,
        "-o", fs_join_path out_dir (fs_replace_ext src_name "o")]]) := by
  cases hstat : fs.fs_time (fs_join_path src_dir src_name) with
  | none =>
      rw [build_file_stat_none fs cc c out_dir src_dir src_name force hstat] at h
      simp at h
  | some t =>
      rw [build_file_stat_some fs cc c out_dir src_dir src_name force t hstat] at h
      by_cases hcond : build_cache_get c (fs_join_path src_dir src_name) ≠ t ∨ force
      · rw [if_pos hcond] at h
        simp only [Except.ok.injEq, Prod.mk.injEq] at h
        obtain ⟨-, hevs, hout⟩ := h
        exact ⟨hout.symm, Or.inr hevs.symm⟩
      · rw [if_neg hcond] at h
        simp only [Except.ok.injEq, Prod.mk.injEq] at h
        obtain ⟨-, hevs, hout⟩ := h
        exact ⟨hout.symm, Or.inl hevs.symm⟩

lemma source_pass_evs_compile (fs : Filesystem) (cc se bin d : String) (ra : Bool) :
    ∀ (entries : List String) (c : build_cache_t) (ofs : List String)
      (c' : build_cache_t) (ofs' : List String) (evs' : List BuildEvent),
    source_pass fs cc se bin d ra entries c ofs = .ok (c', ofs', evs') →
    ∀ e ∈ evs', ∃ a, e = BuildEvent.compileCmd a := by
  intro entries
  induction entries with
  | nil =>
      intro c ofs c' ofs' evs' h e he
      simp only [source_pass, Except.ok.injEq, Prod.mk.injEq] at h
      obtain ⟨-, -, hevs⟩ := h
      rw [← hevs] at he
      simp at he
  | cons nm rest ih =>
      intro c ofs c' ofs' evs' h e he
      by_cases hn : fs_ext nm = se
      · simp only [source_pass, if_pos hn] at h
        by_cases ha : 128 ≤ ofs.length
        · rw [if_pos ha] at h
          simp at h
        · rw [if_neg ha] at h
          cases hbf : build_file fs cc c bin d nm ra with
          | error er =>
              simp only [hbf] at h
              exact absurd h (by simp)
          | ok triple =>
              obtain ⟨c1, evs1, out⟩ := triple
              simp only [hbf] at h
              cases hsp : source_pass fs cc se bin d ra rest c1 (ofs ++ [out]) with
              | error er =>
                  simp only [hsp] at h
                  exact absurd h (by simp)
              | ok triple2 =>
                  obtain ⟨c2, ofs2, evs2⟩ := triple2
                  simp only [hsp, Except.ok.injEq, Prod.mk.injEq] at h
                  obtain ⟨-, -, hevs⟩ := h
                  rw [← hevs] at he
                  rcases List.mem_append.mp he with h1 | h2
                  · rcases (build_file_ok fs cc c bin d nm ra c1 evs1 out hbf).2 with
                      hev | hev
                    · rw [hev] at h1
                      simp at h1
                    · rw [hev] at h1
                      simp at h1
                      exact ⟨_, h1⟩
                  · exact ih _ _ _ _ _ hsp e h2
      · rw [source_pass, if_neg hn] at h
        exact ih _ _ _ _ _ h e he

lemma source_pass_ofs (fs : Filesystem) (cc se bin d : String) (ra : Bool) :
    ∀ (entries : List String) (c : build_cache_t) (ofs : List String)
      (c' : build_cache_t) (ofs' : List String) (evs' : List BuildEvent),
    source_pass fs cc se bin d ra entries c ofs = .ok (c', ofs', evs') →
    ∃ added, ofs' = ofs ++ added ∧ evs'.length ≤ added.length := by
  intro entries
  induction entries with
  | nil =>
      intro c ofs c' ofs' evs' h
      simp only [source_pass, Except.ok.injEq, Prod.mk.injEq] at h
      obtain ⟨-, hofs, hevs⟩ := h
      exact ⟨[], by simp [← hofs], by simp [← hevs]⟩
  | cons nm rest ih =>
      intro c ofs c' ofs' evs' h
      by_cases hn : fs_ext nm = se
      · simp only [source_pass, if_pos hn] at h
        by_cases ha : 128 ≤ ofs.length
        · rw [if_pos ha] at h
          simp at h
        · rw [if_neg ha] at h
          cases hbf : build_file fs cc c bin d nm ra with
          | error er =>
              simp only [hbf] at h
              exact absurd h (by simp)
          | ok triple =>
              obtain ⟨c1, evs1, out⟩ := triple
              simp only [hbf] at h
              cases hsp : source_pass fs cc se bin d ra rest c1 (ofs ++ [out]) with
              | error er =>
                  simp only [hsp] at h
                  exact absurd h (by simp)
              | ok triple2 =>
                  obtain ⟨c2, ofs2, evs2⟩ := triple2
                  simp only [hsp, Except.ok.injEq, Prod.mk.injEq] at h
                  obtain ⟨-, hofs, hevs⟩ := h
                  obtain ⟨added, haddd, hlen⟩ := ih _ _ _ _ _ hsp
                  have hev1 : evs1.length ≤ 1 := by
                    rcases (build_file_ok fs cc c bin d nm ra c1 evs1 out hbf).2 with
                      hev | hev <;> simp [hev]
                  refine ⟨out :: added, ?_, ?_⟩
                  · rw [← hofs, haddd]
                    simp
                  · rw [← hevs]
                    simp only [List.length_append, List.length_cons]
                    omega
      · rw [source_pass, if_neg hn] at h
        exact ih _ _ _ _ _ h

lemma source_pass_unchanged (fs : Filesystem) (cc se bin d : String) :
    ∀ (entries : List String) (c : build_cache_t) (ofs : List String),
    (∀ name ∈ entries, fs_ext name = se →
      fs.fs_time (fs_join_path d name) = some (build_cache_get c (fs_join_path d name))) →
    ofs.length + src_count se entries ≤ 128 →
    source_pass fs cc se bin d false entries c ofs
      = .ok (c, ofs ++ objs_of_entries bin se entries, []) := by
  intro entries
  induction entries with
  | nil =>
      intro c ofs hun hcount
      simp [source_pass, objs_of_entries]
  | cons nm rest ih =>
      intro c ofs hun hcount
      by_cases hn : fs_ext nm = se
      · have hstat := hun nm (by simp) hn
        have hcnt : src_count se (nm :: rest) = src_count se rest + 1 := by
          simp [src_count, hn]
        have hih := ih c (ofs ++ [fs_join_path bin (fs_replace_ext nm "o")])
          (fun name hname hext => hun name (by simp [hname]) hext)
          (by simp only [List.length_append, List.length_cons, List.length_nil]; omega)
        simp only [source_pass, if_pos hn,
          if_neg (show ¬ 128 ≤ ofs.length by omega),
          build_file_stat_some fs cc c bin d nm false
            (build_cache_get c (fs_join_path d nm)) hstat,
          ne_eq, not_true_eq_false, false_or, Bool.false_eq_true, if_false, hih]
        simp [objs_of_entries, hn]
      · have hcnt : src_count se (nm :: rest) = src_count se rest := by
          simp [src_count, hn]
        rw [source_pass, if_neg hn]
        rw [ih c ofs (fun name hname hext => hun name (by simp [hname]) hext)
          (by omega)]
        have : objs_of_entries bin se (nm :: rest) = objs_of_entries bin se rest := by
          simp [objs_of_entries, hn]
        rw [this]

lemma source_pass_assert (fs : Filesystem) (cc se bin d : String) (ra : Bool) :
    ∀ (entries : List String) (c : build_cache_t) (ofs : List String),
    (∀ name ∈ entries, fs_ext name = se →
      (fs.fs_time (fs_join_path d name)).isSome) →
    ofs.length ≤ 128 → 128 < ofs.length + src_count se entries →
    source_pass fs cc se bin d ra entries c ofs = .error .assertFail := by
  intro entries
  induction entries with
  | nil =>
      intro c ofs hst hle hgt
      simp [src_count] at hgt
      omega
  | cons nm rest ih =>
      intro c ofs hst hle hgt
      by_cases hn : fs_ext nm = se
      · simp only [source_pass, if_pos hn]
        by_cases ha : 128 ≤ ofs.length
        · rw [if_pos ha]
        · rw [if_neg ha]
          obtain ⟨t, hstat⟩ := Option.isSome_iff_exists.mp (hst nm (by simp) hn)
          rw [build_file_stat_some fs cc c bin d nm ra t hstat]
          have hcnt : src_count se (nm :: rest) = src_count se rest + 1 := by
            simp [src_count, hn]
          by_cases hcond : build_cache_get c (fs_join_path d nm) ≠ t ∨ ra
          · rw [if_pos hcond]
            simp only []
            rw [ih _ (ofs ++ [fs_join_path bin (fs_replace_ext nm "o")])
              (fun name hname hext => hst name (by simp [hname]) hext)
              (by simp only [List.length_append, List.length_cons, List.length_nil]; omega)
              (by simp only [List.length_append, List.length_cons, List.length_nil]; omega)]
          · rw [if_neg hcond]
            simp only []
            rw [ih _ (ofs ++ [fs_join_path bin (fs_replace_ext nm "o")])
              (fun name hname hext => hst name (by simp [hname]) hext)
              (by simp only [List.length_append, List.length_cons, List.length_nil]; omega)
              (by simp only [List.length_append, List.length_cons, List.length_nil]; omega)]
      · have hcnt : src_count se (nm :: rest) = src_count se rest := by
          simp [src_count, hn]
        rw [source_pass, if_neg hn]
        exact ih c ofs (fun name hname hext => hst name (by simp [hname]) hext)
          hle (by omega)

lemma source_pass_total (fs : Filesystem) (cc se bin d : String) (ra : Bool) :
    ∀ (entries : List String) (c : build_cache_t) (ofs : List String),
    (∀ name ∈ entries, fs_ext name = se →
      (fs.fs_time (fs_join_path d name)).isSome) →
    ofs.length + src_count se entries ≤ 128 →
    ∃ c' ofs' evs', source_pass fs cc se bin d ra entries c ofs = .ok (c', ofs', evs')
      ∧ ofs'.length = ofs.length + src_count se entries := by
  intro entries
  induction entries with
  | nil =>
      intro c ofs hst hle
      exact ⟨c, ofs, [], by simp [source_pass], by simp [src_count]⟩
  | cons nm rest ih =>
      intro c ofs hst hle
      by_cases hn : fs_ext nm = se
      · have hcnt : src_count se (nm :: rest) = src_count se rest + 1 := by
          simp [src_count, hn]
        obtain ⟨t, hstat⟩ := Option.isSome_iff_exists.mp (hst nm (by simp) hn)
        obtain ⟨c', ofs', evs', hrec, hlen⟩ := ih
          (if build_cache_get c (fs_join_path d nm) ≠ t ∨ ra then
            build_cache_set c (fs_join_path d nm) t else c)
          (ofs ++ [fs_join_path bin (fs_replace_ext nm "o")])
          (fun name hname hext => hst name (by simp [hname]) hext)
          (by simp only [List.length_append, List.length_cons, List.length_nil]; omega)
        by_cases hcond : build_cache_get c (fs_join_path d nm) ≠ t ∨ ra
        · rw [if_pos hcond] at hrec
          refine ⟨c', ofs',
            [BuildEvent.compileCmd [cc, "-c", fs_join_path d nm, "-o",
              fs_join_path bin (fs_replace_ext nm "o")]] ++ evs', ?_, ?_⟩
          · simp only [source_pass, if_pos hn,
              if_neg (show ¬ 128 ≤ ofs.length by omega),
              build_file_stat_some fs cc c bin d nm ra t hstat, if_pos hcond, hrec]
          · rw [hlen]
            simp only [List.length_append, List.length_cons, List.length_nil]
            omega
        · rw [if_neg hcond] at hrec
          refine ⟨c', ofs', evs', ?_, ?_⟩
          · simp only [source_pass, if_pos hn,
              if_neg (show ¬ 128 ≤ ofs.length by omega),
              build_file_stat_some fs cc c bin d nm ra t hstat, if_neg hcond, hrec,
              List.nil_append]
          · rw [hlen]
            simp only [List.length_append, List.length_cons, List.length_nil]
            omega
      · have hcnt : src_count se (nm :: rest) = src_count se rest := by
          simp [src_count, hn]
        obtain ⟨c', ofs', evs', hrec, hlen⟩ := ih c ofs
          (fun name hname hext => hst name (by simp [hname]) hext) (by omega)
        exact ⟨c', ofs', evs', by rw [source_pass, if_neg hn]; exact hrec, by omega⟩

lemma header_scan_ra_mono (fs : Filesystem) (he d : String) :
    ∀ (entries : List String) (c c' : build_cache_t) (ra' : Bool),
    header_scan fs he d entries c true = .ok (c', ra') → ra' = true := by
  intro entries
  induction entries with
  | nil =>
      intro c c' ra' h
      simp only [header_scan, Except.ok.injEq, Prod.mk.injEq] at h
      exact h.2.symm
  | cons nm rest ih =>
      intro c c' ra' h
      by_cases hn : fs_ext nm = he
      · simp only [header_scan, if_pos hn] at h
        cases hstat : fs.fs_time (fs_join_path d nm) with
        | none =>
            rw [hstat] at h
            simp at h
        | some t =>
            simp only [hstat] at h
            by_cases hc : build_cache_get c (fs_join_path d nm) ≠ t
            · rw [if_pos hc] at h
              exact ih _ _ _ h
            · rw [if_neg hc] at h
              exact ih _ _ _ h
      · rw [header_scan, if_neg hn] at h
        exact ih _ _ _ h

lemma header_scan_unchanged (fs : Filesystem) (he d : String) :
    ∀ (entries : List String) (c : build_cache_t) (ra : Bool),
    (∀ name ∈ entries, fs_ext name = he →
      fs.fs_time (fs_join_path d name) = some (build_cache_get c (fs_join_path d name))) →
    header_scan fs he d entries c ra = .ok (c, ra) := by
  intro entries
  induction entries with
  | nil => intro c ra hun; rfl
  | cons nm rest ih =>
      intro c ra hun
      by_cases hn : fs_ext nm = he
      · have hstat := hun nm (by simp) hn
        simp only [header_scan, if_pos hn, hstat, ne_eq, not_true_eq_false,
          if_false]
        exact ih c ra (fun name hname hext => hun name (by simp [hname]) hext)
      · rw [header_scan, if_neg hn]
        exact ih c ra (fun name hname hext => hun name (by simp [hname]) hext)

lemma header_scan_ok (fs : Filesystem) (he d : String) :
    ∀ (entries : List String) (c : build_cache_t) (ra : Bool),
    (∀ name ∈ entries, fs_ext name = he →
      (fs.fs_time (fs_join_path d name)).isSome) →
    ∃ c' ra', header_scan fs he d entries c ra = .ok (c', ra') := by
  intro entries
  induction entries with
  | nil => intro c ra hst; exact ⟨c, ra, rfl⟩
  | cons nm rest ih =>
      intro c ra hst
      by_cases hn : fs_ext nm = he
      · obtain ⟨t, hstat⟩ := Option.isSome_iff_exists.mp (hst nm (by simp) hn)
        by_cases hc : build_cache_get c (fs_join_path d nm) ≠ t
        · obtain ⟨c', ra', hrec⟩ := ih (build_cache_set c (fs_join_path d nm) t) true
            (fun name hname hext => hst name (by simp [hname]) hext)
          exact ⟨c', ra', by
            simp only [header_scan, if_pos hn, hstat, if_pos hc, hrec]⟩
        · obtain ⟨c', ra', hrec⟩ := ih c ra
            (fun name hname hext => hst name (by simp [hname]) hext)
          exact ⟨c', ra', by
            simp only [header_scan, if_pos hn, hstat, if_neg hc, hrec]⟩
      · obtain ⟨c', ra', hrec⟩ := ih c ra
          (fun name hname hext => hst name (by simp [hname]) hext)
        exact ⟨c', ra', by rw [header_scan, if_neg hn]; exact hrec⟩

lemma build_app_dirs_append (fs : Filesystem) (cc : String) (cfg : build_app_config_t) :
    ∀ (l1 l2 : List String) (c : build_cache_t) (ra : Bool) (ofs : List String),
    build_app_dirs fs cc cfg (l1 ++ l2) c ra ofs =
      match build_app_dirs fs cc cfg l1 c ra ofs with
      | .error e => .error e
      | .ok (c1, ra1, ofs1, evs1) =>
          match build_app_dirs fs cc cfg l2 c1 ra1 ofs1 with
          | .error e => .error e
          | .ok (c2, ra2, ofs2, evs2) => .ok (c2, ra2, ofs2, evs1 ++ evs2) := by
  intro l1
  induction l1 with
  | nil =>
      intro l2 c ra ofs
      simp only [List.nil_append, build_app_dirs]
      cases h : build_app_dirs fs cc cfg l2 c ra ofs with
      | error e => simp only []
      | ok q =>
          obtain ⟨c2, ra2, ofs2, evs2⟩ := q
          simp only [List.nil_append]
  | cons d rest ih =>
      intro l2 c ra ofs
      simp only [List.cons_append, build_app_dirs]
      cases hdir : fs.openDir d with
      | none => simp only []
      | some entries =>
          simp only []
          cases hhs : header_scan fs cfg.header_ext d entries c ra with
          | error e => simp only []
          | ok pr =>
              obtain ⟨c1, ra1⟩ := pr
              simp only []
              cases hsp : source_pass fs cc cfg.src_ext cfg.bin d ra1 entries c1 ofs with
              | error e => simp only []
              | ok tr =>
                  obtain ⟨c2, ofs2, evs⟩ := tr
                  simp only [List.append_eq]
                  rw [ih l2 c2 ra1 ofs2]
                  cases hrec : build_app_dirs fs cc cfg rest c2 ra1 ofs2 with
                  | error e => simp only []
                  | ok q =>
                      obtain ⟨c3, ra3, ofs3, evs3⟩ := q
                      simp only []
                      cases hl2 : build_app_dirs fs cc cfg l2 c3 ra3 ofs3 with
                      | error e => simp only []
                      | ok q2 =>
                          obtain ⟨c4, ra4, ofs4, evs4⟩ := q2
                          simp [List.append_assoc]

lemma build_app_dirs_force (fs : Filesystem) (cc : String) (cfg : build_app_config_t) :
    ∀ (ds : List String) (c : build_cache_t) (ofs : List String)
      (c' : build_cache_t) (ra' : Bool) (ofs' : List String) (evs' : List BuildEvent),
    build_app_dirs fs cc cfg ds c true ofs = .ok (c', ra', ofs', evs') →
    ∀ d ∈ ds, ∀ name ∈ (fs.openDir d).getD [], fs_ext name = cfg.src_ext →
      BuildEvent.compileCmd [cc, "-c", fs_join_path d name, "-o",
        fs_join_path cfg.bin (fs_replace_ext name "o")] ∈ evs' := by
  intro ds
  induction ds with
  | nil =>
      intro c ofs c' ra' ofs' evs' h d hd
      simp at hd
  | cons d0 rest ih =>
      intro c ofs c' ra' ofs' evs' h d hd name hname hext
      simp only [build_app_dirs] at h
      cases hdir : fs.openDir d0 with
      | none =>
          simp only [hdir] at h
          exact absurd h (by simp)
      | some entries =>
          simp only [hdir] at h
          cases hhs : header_scan fs cfg.header_ext d0 entries c true with
          | error e =>
              simp only [hhs] at h
              exact absurd h (by simp)
          | ok pr =>
              obtain ⟨c1, ra1⟩ := pr
              have hra1 : ra1 = true :=
                header_scan_ra_mono fs cfg.header_ext d0 entries c c1 ra1 hhs
              subst hra1
              simp only [hhs] at h
              cases hsp : source_pass fs cc cfg.src_ext cfg.bin d0 true entries c1 ofs with
              | error e =>
                  simp only [hsp] at h
                  exact absurd h (by simp)
              | ok tr =>
                  obtain ⟨c2, ofs2, evs⟩ := tr
                  simp only [hsp] at h
                  cases hrec : build_app_dirs fs cc cfg rest c2 true ofs2 with
                  | error e =>
                      simp only [hrec] at h
                      exact absurd h (by simp)
                  | ok q =>
                      obtain ⟨c3, ra3, ofs3, evs3⟩ := q
                      simp only [hrec, Except.ok.injEq, Prod.mk.injEq] at h
                      obtain ⟨-, -, -, hevs⟩ := h
                      rw [← hevs]
                      rcases List.mem_cons.mp hd with rfl | hd'
                      · have hname' : name ∈ entries := by
                          rw [hdir] at hname
                          simpa using hname
                        exact List.mem_append_left _
                          (source_pass_force fs cc cfg.src_ext cfg.bin d entries
                            c1 ofs c2 ofs2 evs hsp name hname' hext)
                      · exact List.mem_append_right _
                          (ih c2 ofs2 _ _ _ _ hrec d hd' name hname hext)

lemma build_app_dirs_evs_compile (fs : Filesystem) (cc : String)
    (cfg : build_app_config_t) :
    ∀ (ds : List String) (c : build_cache_t) (ra : Bool) (ofs : List String)
      (c' : build_cache_t) (ra' : Bool) (ofs' : List String) (evs' : List BuildEvent),
    build_app_dirs fs cc cfg ds c ra ofs = .ok (c', ra', ofs', evs') →
    ∀ e ∈ evs', ∃ a, e = BuildEvent.compileCmd a := by
  intro ds
  induction ds with
  | nil =>
      intro c ra ofs c' ra' ofs' evs' h e he
      simp only [build_app_dirs, Except.ok.injEq, Prod.mk.injEq] at h
      obtain ⟨-, -, -, hevs⟩ := h
      rw [← hevs] at he
      simp at he
  | cons d0 rest ih =>
      intro c ra ofs c' ra' ofs' evs' h e he
      simp only [build_app_dirs] at h
      cases hdir : fs.openDir d0 with
      | none =>
          simp only [hdir] at h
          exact absurd h (by simp)
      | some entries =>
          simp only [hdir] at h
          cases hhs : header_scan fs cfg.header_ext d0 entries c ra with
          | error e2 =>
              simp only [hhs] at h
              exact absurd h (by simp)
          | ok pr =>
              obtain ⟨c1, ra1⟩ := pr
              simp only [hhs] at h
              cases hsp : source_pass fs cc cfg.src_ext cfg.bin d0 ra1 entries c1 ofs with
              | error e2 =>
                  simp only [hsp] at h
                  exact absurd h (by simp)
              | ok tr =>
                  obtain ⟨c2, ofs2, evs⟩ := tr
                  simp only [hsp] at h
                  cases hrec : build_app_dirs fs cc cfg rest c2 ra1 ofs2 with
                  | error e2 =>
                      simp only [hrec] at h
                      exact absurd h (by simp)
                  | ok q =>
                      obtain ⟨c3, ra3, ofs3, evs3⟩ := q
                      simp only [hrec, Except.ok.injEq, Prod.mk.injEq] at h
                      obtain ⟨-, -, -, hevs⟩ := h
                      rw [← hevs] at he
                      rcases List.mem_append.mp he with h1 | h2
                      · exact source_pass_evs_compile fs cc cfg.src_ext cfg.bin d0
                          ra1 entries c1 ofs c2 ofs2 evs hsp e h1
                      · exact ih c2 ra1 ofs2 _ _ _ _ hrec e h2

lemma build_app_dirs_ofs (fs : Filesystem) (cc : String) (cfg : build_app_config_t) :
    ∀ (ds : List String) (c : build_cache_t) (ra : Bool) (ofs : List String)
      (c' : build_cache_t) (ra' : Bool) (ofs' : List String) (evs' : List BuildEvent),
    build_app_dirs fs cc cfg ds c ra ofs = .ok (c', ra', ofs', evs') →
    ∃ added, ofs' = ofs ++ added ∧ evs'.length ≤ added.length := by
  intro ds
  induction ds with
  | nil =>
      intro c ra ofs c' ra' ofs' evs' h
      simp only [build_app_dirs, Except.ok.injEq, Prod.mk.injEq] at h
      obtain ⟨-, -, hofs, hevs⟩ := h
      exact ⟨[], by simp [← hofs], by simp [← hevs]⟩
  | cons d0 rest ih =>
      intro c ra ofs c' ra' ofs' evs' h
      simp only [build_app_dirs] at h
      cases hdir : fs.openDir d0 with
      | none =>
          simp only [hdir] at h
          exact absurd h (by simp)
      | some entries =>
          simp only [hdir] at h
          cases hhs : header_scan fs cfg.header_ext d0 entries c ra with
          | error e2 =>
              simp only [hhs] at h
              exact absurd h (by simp)
          | ok pr =>
              obtain ⟨c1, ra1⟩ := pr
              simp only [hhs] at h
              cases hsp : source_pass fs cc cfg.src_ext cfg.bin d0 ra1 entries c1 ofs with
              | error e2 =>
                  simp only [hsp] at h
                  exact absurd h (by simp)
              | ok tr =>
                  obtain ⟨c2, ofs2, evs⟩ := tr
                  simp only [hsp] at h
                  cases hrec : build_app_dirs fs cc cfg rest c2 ra1 ofs2 with
                  | error e2 =>
                      simp only [hrec] at h
                      exact absurd h (by simp)
                  | ok q =>
                      obtain ⟨c3, ra3, ofs3, evs3⟩ := q
                      simp only [hrec, Except.ok.injEq, Prod.mk.injEq] at h
                      obtain ⟨-, -, hofs, hevs⟩ := h
                      obtain ⟨a1, ha1, hl1⟩ :=
                        source_pass_ofs fs cc cfg.src_ext cfg.bin d0 ra1 entries
                          c1 ofs c2 ofs2 evs hsp
                      obtain ⟨a2, ha2, hl2⟩ := ih c2 ra1 ofs2 _ _ _ _ hrec
                      refine ⟨a1 ++ a2, ?_, ?_⟩
                      · rw [← hofs, ha2, ha1]
                        simp [List.append_assoc]
                      · rw [← hevs]
                        simp only [List.length_append]
                        omega

lemma objs_of_entries_length (bin se : String) (entries : List String) :
    (objs_of_entries bin se entries).length = src_count se entries := by
  simp [objs_of_entries, src_count]

lemma build_app_dirs_unchanged (fs : Filesystem) (cc : String)
    (cfg : build_app_config_t) :
    ∀ (ds : List String) (c : build_cache_t) (ofs : List String),
    (∀ d ∈ ds, (fs.openDir d).isSome) →
    (∀ d ∈ ds, ∀ name ∈ (fs.openDir d).getD [],
      (fs_ext name = cfg.header_ext ∨ fs_ext name = cfg.src_ext) →
      fs.fs_time (fs_join_path d name)
        = some (build_cache_get c (fs_join_path d name))) →
    ofs.length + total_src_count fs cfg ds ≤ 128 →
    build_app_dirs fs cc cfg ds c false ofs
      = .ok (c, false, ofs ++ expected_objs fs cfg ds, []) := by
  intro ds
  induction ds with
  | nil =>
      intro c ofs hop hun hcount
      simp [build_app_dirs, expected_objs]
  | cons d0 rest ih =>
      intro c ofs hop hun hcount
      obtain ⟨entries, hdir⟩ := Option.isSome_iff_exists.mp (hop d0 (by simp))
      have hmem : ∀ name ∈ entries, name ∈ (fs.openDir d0).getD [] := by
        intro name hname
        rw [hdir]
        simpa using hname
      have hunh : ∀ name ∈ entries, fs_ext name = cfg.header_ext →
          fs.fs_time (fs_join_path d0 name)
            = some (build_cache_get c (fs_join_path d0 name)) :=
        fun name hname hext => hun d0 (by simp) name (hmem name hname) (Or.inl hext)
      have huns : ∀ name ∈ entries, fs_ext name = cfg.src_ext →
          fs.fs_time (fs_join_path d0 name)
            = some (build_cache_get c (fs_join_path d0 name)) :=
        fun name hname hext => hun d0 (by simp) name (hmem name hname) (Or.inr hext)
      have htot : total_src_count fs cfg (d0 :: rest)
          = src_count cfg.src_ext entries + total_src_count fs cfg rest := by
        simp [total_src_count, hdir]
      have hih := ih c (ofs ++ objs_of_entries cfg.bin cfg.src_ext entries)
        (fun d hd => hop d (by simp [hd]))
        (fun d hd name hname hor => hun d (by simp [hd]) name hname hor)
        (by
          simp only [List.length_append, objs_of_entries_length]
          omega)
      simp only [build_app_dirs, hdir,
        header_scan_unchanged fs cfg.header_ext d0 entries c false hunh,
        source_pass_unchanged fs cc cfg.src_ext cfg.bin d0 entries c ofs huns
          (by omega),
        hih]
      have hexp : expected_objs fs cfg (d0 :: rest)
          = objs_of_entries cfg.bin cfg.src_ext entries ++ expected_objs fs cfg rest := by
        simp [expected_objs, hdir]
      rw [hexp]
      simp [List.append_assoc]

lemma build_app_dirs_assert (fs : Filesystem) (cc : String)
    (cfg : build_app_config_t) :
    ∀ (ds : List String) (c : build_cache_t) (ra : Bool) (ofs : List String),
    (∀ d ∈ ds, (fs.openDir d).isSome) →
    (∀ d ∈ ds, ∀ name ∈ (fs.openDir d).getD [],
      (fs_ext name = cfg.header_ext ∨ fs_ext name = cfg.src_ext) →
      (fs.fs_time (fs_join_path d name)).isSome) →
    ofs.length ≤ 128 → 128 < ofs.length + total_src_count fs cfg ds →
    build_app_dirs fs cc cfg ds c ra ofs = .error .assertFail := by
  intro ds
  induction ds with
  | nil =>
      intro c ra ofs hop hst hle hgt
      simp [total_src_count] at hgt
      omega
  | cons d0 rest ih =>
      intro c ra ofs hop hst hle hgt
      obtain ⟨entries, hdir⟩ := Option.isSome_iff_exists.mp (hop d0 (by simp))
      have hmem : ∀ name ∈ entries, name ∈ (fs.openDir d0).getD [] := by
        intro name hname
        rw [hdir]
        simpa using hname
      have hsth : ∀ name ∈ entries, fs_ext name = cfg.header_ext →
          (fs.fs_time (fs_join_path d0 name)).isSome :=
        fun name hname hext => hst d0 (by simp) name (hmem name hname) (Or.inl hext)
      have hsts : ∀ name ∈ entries, fs_ext name = cfg.src_ext →
          (fs.fs_time (fs_join_path d0 name)).isSome :=
        fun name hname hext => hst d0 (by simp) name (hmem name hname) (Or.inr hext)
      have htot : total_src_count fs cfg (d0 :: rest)
          = src_count cfg.src_ext entries + total_src_count fs cfg rest := by
        simp [total_src_count, hdir]
      obtain ⟨c1, ra1, hhs⟩ := header_scan_ok fs cfg.header_ext d0 entries c ra hsth
      by_cases hsplit : 128 < ofs.length + src_count cfg.src_ext entries
      · simp only [build_app_dirs, hdir, hhs,
          source_pass_assert fs cc cfg.src_ext cfg.bin d0 ra1 entries c1 ofs
            hsts hle hsplit]
      · obtain ⟨c2, ofs2, evs2, hsp, hlen⟩ :=
          source_pass_total fs cc cfg.src_ext cfg.bin d0 ra1 entries c1 ofs
            hsts (by omega)
        simp only [build_app_dirs, hdir, hhs, hsp,
          ih c2 ra1 ofs2
            (fun d hd => hop d (by simp [hd]))
            (fun d hd name hname hor => hst d (by simp [hd]) name hname hor)
            (by omega) (by omega)]

lemma build_app_dirs_total (fs : Filesystem) (cc : String)
    (cfg : build_app_config_t) :
    ∀ (ds : List String) (c : build_cache_t) (ra : Bool) (ofs : List String),
    (∀ d ∈ ds, (fs.openDir d).isSome) →
    (∀ d ∈ ds, ∀ name ∈ (fs.openDir d).getD [],
      (fs_ext name = cfg.header_ext ∨ fs_ext name = cfg.src_ext) →
      (fs.fs_time (fs_join_path d name)).isSome) →
    ofs.length + total_src_count fs cfg ds ≤ 128 →
    ∃ c' ra' ofs' evs',
      build_app_dirs fs cc cfg ds c ra ofs = .ok (c', ra', ofs', evs')
        ∧ ofs'.length = ofs.length + total_src_count fs cfg ds := by
  intro ds
  induction ds with
  | nil =>
      intro c ra ofs hop hst hle
      exact ⟨c, ra, ofs, [], rfl, by simp [total_src_count]⟩
  | cons d0 rest ih =>
      intro c ra ofs hop hst hle
      obtain ⟨entries, hdir⟩ := Option.isSome_iff_exists.mp (hop d0 (by simp))
      have hmem : ∀ name ∈ entries, name ∈ (fs.openDir d0).getD [] := by
        intro name hname
        rw [hdir]
        simpa using hname
      have hsth : ∀ name ∈ entries, fs_ext name = cfg.header_ext →
          (fs.fs_time (fs_join_path d0 name)).isSome :=
        fun name hname hext => hst d0 (by simp) name (hmem name hname) (Or.inl hext)
      have hsts : ∀ name ∈ entries, fs_ext name = cfg.src_ext →
          (fs.fs_time (fs_join_path d0 name)).isSome :=
        fun name hname hext => hst d0 (by simp) name (hmem name hname) (Or.inr hext)
      have htot : total_src_count fs cfg (d0 :: rest)
          = src_count cfg.src_ext entries + total_src_count fs cfg rest := by
        simp [total_src_count, hdir]
      obtain ⟨c1, ra1, hhs⟩ := header_scan_ok fs cfg.header_ext d0 entries c ra hsth
      obtain ⟨c2, ofs2, evs2, hsp, hlen⟩ :=
        source_pass_total fs cc cfg.src_ext cfg.bin d0 ra1 entries c1 ofs
          hsts (by omega)
      obtain ⟨c3, ra3, ofs3, evs3, hrec, hlen3⟩ := ih c2 ra1 ofs2
        (fun d hd => hop d (by simp [hd]))
        (fun d hd name hname hor => hst d (by simp [hd]) name hname hor)
        (by omega)
      refine ⟨c3, ra3, ofs3, evs2 ++ evs3, ?_, by omega⟩
      simp only [build_app_dirs, hdir, hhs, hsp, hrec]

/-! ## Claims C1, C2, C3, C10 -/

/-- C1, counterexample to the claim as stated: a changed header does NOT
force recompilation of source files in directories processed BEFORE the
directory containing the header.  Directories are processed one at a time
(header scan, then source pass); the rebuild-all flag set by the changed
header `d2/x.h` comes too late for `d1/a.c` (unchanged, already passed),
so no compile command for `d1/a.c` is issued. -/
theorem c1_counterexample :
    build_cache_get [⟨"d1/a.c", 5⟩, ⟨"d2/x.h", 1⟩, ⟨"d2/b.c", 9⟩] "d2/x.h" = 1 ∧
    Filesystem.fs_time ⟨[("d1", ["a.c"]), ("d2", ["x.h", "b.c"])],
      [("d1/a.c", 5), ("d2/x.h", 7), ("d2/b.c", 9)]⟩ "d2/x.h" = some 7 ∧
    build_app ⟨[("d1", ["a.c"]), ("d2", ["x.h", "b.c"])],
        [("d1/a.c", 5), ("d2/x.h", 7), ("d2/b.c", 9)]⟩ "cc"
      ⟨"c", "h", "bin", "bin/app", ["d1", "d2"], false⟩
      [⟨"d1/a.c", 5⟩, ⟨"d2/x.h", 1⟩, ⟨"d2/b.c", 9⟩]
      = .ok ([⟨"d1/a.c", 5⟩, ⟨"d2/x.h", 7⟩, ⟨"d2/b.c", 9⟩],
        [.compileCmd ["cc", "-c", "d2/b.c", "-o", "bin/b.o"],
         .cacheSave [⟨"d1/a.c", 5⟩, ⟨"d2/x.h", 7⟩, ⟨"d2/b.c", 9⟩],
         .linkCmd ["cc", "bin/a.o", "bin/b.o", "-o", "bin/app"]]) ∧
    BuildEvent.compileCmd ["cc", "-c", "d1/a.c", "-o", "bin/a.o"] ∉
      ([.compileCmd ["cc", "-c", "d2/b.c", "-o", "bin/b.o"],
        .cacheSave [⟨"d1/a.c", 5⟩, ⟨"d2/x.h", 7⟩, ⟨"d2/b.c", 9⟩],
        .linkCmd ["cc", "bin/a.o", "bin/b.o", "-o", "bin/app"]]
        : List BuildEvent) := by decide

/-- C1 (amended): once the rebuild-all flag is set — in particular when the
header scan of some directory `d` in the configured list reports a change —
every source file in `d` and in every LATER-processed directory is
recompiled in that `build_app` invocation, even with unchanged timestamps;
directories processed before `d` are unaffected. -/
theorem c1_header_change_forces_rest (fs : Filesystem) (cc : String)
    (cfg : build_app_config_t) (c : build_cache_t)
    (ds1 : List String) (d : String) (ds2 : List String)
    (hsplit : cfg.srcs = ds1 ++ d :: ds2)
    (c1 : build_cache_t) (ra1 : Bool) (ofs1 : List String) (evs1 : List BuildEvent)
    (h1 : build_app_dirs fs cc cfg ds1 c cfg.rebuild_all [] = .ok (c1, ra1, ofs1, evs1))
    (entries : List String) (hdir : fs.openDir d = some entries)
    (c2 : build_cache_t)
    (hhs : header_scan fs cfg.header_ext d entries c1 ra1 = .ok (c2, true))
    (cf : build_cache_t) (evs : List BuildEvent)
    (hrun : build_app fs cc cfg c = .ok (cf, evs)) :
    ∀ d2 ∈ d :: ds2, ∀ name ∈ (fs.openDir d2).getD [], fs_ext name = cfg.src_ext →
      BuildEvent.compileCmd [cc, "-c", fs_join_path d2 name, "-o",
        fs_join_path cfg.bin (fs_replace_ext name "o")] ∈ evs := by
  intro d2 hd2 name hname hext
  rw [build_app, hsplit, build_app_dirs_append] at hrun
  simp only [h1] at hrun
  cases hd2run : build_app_dirs fs cc cfg (d :: ds2) c1 ra1 ofs1 with
  | error e =>
      simp only [hd2run] at hrun
      exact absurd hrun (by simp)
  | ok q =>
      obtain ⟨c3, ra3, ofs3, evs3⟩ := q
      have hmem3 : BuildEvent.compileCmd [cc, "-c", fs_join_path d2 name, "-o",
          fs_join_path cfg.bin (fs_replace_ext name "o")] ∈ evs3 := by
        simp only [build_app_dirs, hdir, hhs] at hd2run
        cases hsp : source_pass fs cc cfg.src_ext cfg.bin d true entries c2 ofs1 with
        | error e =>
            simp only [hsp] at hd2run
            exact absurd hd2run (by simp)
        | ok tr =>
            obtain ⟨c4, ofs4, evsA⟩ := tr
            simp only [hsp] at hd2run
            cases hrec : build_app_dirs fs cc cfg ds2 c4 true ofs4 with
            | error e =>
                simp only [hrec] at hd2run
                exact absurd hd2run (by simp)
            | ok q2 =>
                obtain ⟨c5, ra5, ofs5, evsB⟩ := q2
                simp only [hrec, Except.ok.injEq, Prod.mk.injEq] at hd2run
                obtain ⟨-, -, -, hevs3⟩ := hd2run
                rw [← hevs3]
                rcases List.mem_cons.mp hd2 with rfl | hd2'
                · have hname' : name ∈ entries := by
                    rw [hdir] at hname
                    simpa using hname
                  exact List.mem_append_left _
                    (source_pass_force fs cc cfg.src_ext cfg.bin d2 entries
                      c2 ofs1 c4 ofs4 evsA hsp name hname' hext)
                · exact List.mem_append_right _
                    (build_app_dirs_force fs cc cfg ds2 c4 ofs4 _ _ _ _
                      hrec d2 hd2' name hname hext)
      simp only [hd2run] at hrun
      by_cases hoe : ofs3.isEmpty
      · rw [if_pos hoe] at hrun
        simp only [Except.ok.injEq, Prod.mk.injEq] at hrun
        obtain ⟨-, hevs⟩ := hrun
        rw [← hevs]
        exact List.mem_append_left _ (List.mem_append_right _ hmem3)
      · rw [if_neg hoe] at hrun
        simp only [Except.ok.injEq, Prod.mk.injEq] at hrun
        obtain ⟨-, hevs⟩ := hrun
        rw [← hevs]
        exact List.mem_append_left _ (List.mem_append_right _ hmem3)

theorem c1_header_change_forces_rest_witness :
    BuildEvent.compileCmd ["cc", "-c", "d2/b.c", "-o", "bin/b.o"] ∈
      ([.compileCmd ["cc", "-c", "d2/b.c", "-o", "bin/b.o"],
        .cacheSave [⟨"d1/a.c", 5⟩, ⟨"d2/x.h", 7⟩, ⟨"d2/b.c", 9⟩],
        .linkCmd ["cc", "bin/a.o", "bin/b.o", "-o", "bin/app"]]
        : List BuildEvent) :=
  c1_header_change_forces_rest
    ⟨[("d1", ["a.c"]), ("d2", ["x.h", "b.c"])],
      [("d1/a.c", 5), ("d2/x.h", 7), ("d2/b.c", 9)]⟩ "cc"
    ⟨"c", "h", "bin", "bin/app", ["d1", "d2"], false⟩
    [⟨"d1/a.c", 5⟩, ⟨"d2/x.h", 1⟩, ⟨"d2/b.c", 9⟩]
    ["d1"] "d2" [] rfl
    [⟨"d1/a.c", 5⟩, ⟨"d2/x.h", 1⟩, ⟨"d2/b.c", 9⟩] false ["bin/a.o"] [] (by decide)
    ["x.h", "b.c"] (by decide)
    [⟨"d1/a.c", 5⟩, ⟨"d2/x.h", 7⟩, ⟨"d2/b.c", 9⟩] (by decide)
    [⟨"d1/a.c", 5⟩, ⟨"d2/x.h", 7⟩, ⟨"d2/b.c", 9⟩]
    [.compileCmd ["cc", "-c", "d2/b.c", "-o", "bin/b.o"],
     .cacheSave [⟨"d1/a.c", 5⟩, ⟨"d2/x.h", 7⟩, ⟨"d2/b.c", 9⟩],
     .linkCmd ["cc", "bin/a.o", "bin/b.o", "-o", "bin/app"]] (by decide)
    "d2" (by decide) "b.c" (by decide) (by decide)

/-- C2, counterexample to the claim as stated: with one source file whose
on-disk time equals its cached value (and no headers), the driver still
invokes the external linker once and rewrites the cache file — it performs
one compiler invocation, not zero, because an object path is recorded for
every source file whether or not it was recompiled. -/
theorem c2_counterexample :
    Filesystem.fs_time ⟨[("d", ["a.c"])], [("d/a.c", 5)]⟩ "d/a.c"
      = some (build_cache_get [⟨"d/a.c", 5⟩] "d/a.c") ∧
    build_app ⟨[("d", ["a.c"])], [("d/a.c", 5)]⟩ "cc"
      ⟨"c", "h", "bin", "bin/app", ["d"], false⟩ [⟨"d/a.c", 5⟩]
      = .ok ([⟨"d/a.c", 5⟩],
        [.cacheSave [⟨"d/a.c", 5⟩], .linkCmd ["cc", "bin/a.o", "-o", "bin/app"]]) ∧
    BuildEvent.linkCmd ["cc", "bin/a.o", "-o", "bin/app"] ∈
      ([.cacheSave [⟨"d/a.c", 5⟩], .linkCmd ["cc", "bin/a.o", "-o", "bin/app"]]
        : List BuildEvent) ∧
    BuildEvent.cacheSave [⟨"d/a.c", 5⟩] ∈
      ([.cacheSave [⟨"d/a.c", 5⟩], .linkCmd ["cc", "bin/a.o", "-o", "bin/app"]]
        : List BuildEvent) := by decide

/-- C2 (amended): when no source or header file changed (and no rebuild is
forced), `build_app` invokes zero PER-FILE compile commands and leaves the
cache store's contents unchanged; however, when at least one source file
exists it still rewrites the persisted cache file (with identical
contents) and invokes the link command once; only with zero source files
does it perform zero invocations and leave the cache file untouched,
reporting "Nothing to rebuild". -/
theorem c2_unchanged_no_recompiles (fs : Filesystem) (cc : String)
    (cfg : build_app_config_t) (c : build_cache_t)
    (hop : ∀ d ∈ cfg.srcs, (fs.openDir d).isSome)
    (hun : ∀ d ∈ cfg.srcs, ∀ name ∈ (fs.openDir d).getD [],
      (fs_ext name = cfg.header_ext ∨ fs_ext name = cfg.src_ext) →
      fs.fs_time (fs_join_path d name)
        = some (build_cache_get c (fs_join_path d name)))
    (hra : cfg.rebuild_all = false)
    (hcount : total_src_count fs cfg cfg.srcs ≤ 128) :
    build_app fs cc cfg c =
      .ok (c, if (expected_objs fs cfg cfg.srcs).isEmpty
        then [BuildEvent.info "Nothing to rebuild"]
        else [BuildEvent.cacheSave c,
          BuildEvent.linkCmd (cc :: expected_objs fs cfg cfg.srcs
            ++ ["-o", cfg.out])]) := by
  have hdirs := build_app_dirs_unchanged fs cc cfg cfg.srcs c [] hop hun
    (by simpa using hcount)
  rw [build_app, hra, hdirs]
  simp only [List.nil_append]
  by_cases he : (expected_objs fs cfg cfg.srcs).isEmpty
  · rw [if_pos he, if_pos he]
  · rw [if_neg he, if_neg he]

theorem c2_unchanged_no_recompiles_witness :
    build_app ⟨[("d", ["a.c"])], [("d/a.c", 5)]⟩ "cc"
      ⟨"c", "h", "bin", "bin/app", ["d"], false⟩ [⟨"d/a.c", 5⟩]
      = .ok ([⟨"d/a.c", 5⟩],
        [.cacheSave [⟨"d/a.c", 5⟩],
         .linkCmd ["cc", "bin/a.o", "-o", "bin/app"]]) :=
  (c2_unchanged_no_recompiles ⟨[("d", ["a.c"])], [("d/a.c", 5)]⟩ "cc"
    ⟨"c", "h", "bin", "bin/app", ["d"], false⟩ [⟨"d/a.c", 5⟩]
    (by decide) (by decide) rfl (by decide)).trans (by decide)

/-- C3, counterexample to the claim as stated: in a run that recompiles one
changed file, the cache file is persisted BEFORE the link command — the
event trace is compile, cacheSave, linkCmd, so the cache is not "persisted
only after that link command" (the save occurs among the first two events,
before any link). -/
theorem c3_counterexample :
    build_app ⟨[("d", ["a.c"])], [("d/a.c", 7)]⟩ "cc"
      ⟨"c", "h", "bin", "bin/app", ["d"], false⟩ [⟨"d/a.c", 5⟩]
      = .ok ([⟨"d/a.c", 7⟩],
        [.compileCmd ["cc", "-c", "d/a.c", "-o", "bin/a.o"],
         .cacheSave [⟨"d/a.c", 7⟩],
         .linkCmd ["cc", "bin/a.o", "-o", "bin/app"]]) ∧
    BuildEvent.cacheSave [⟨"d/a.c", 7⟩] ∈
      ([.compileCmd ["cc", "-c", "d/a.c", "-o", "bin/a.o"],
        .cacheSave [⟨"d/a.c", 7⟩],
        .linkCmd ["cc", "bin/a.o", "-o", "bin/app"]] : List BuildEvent).take 2 ∧
    BuildEvent.linkCmd ["cc", "bin/a.o", "-o", "bin/app"] ∉
      ([.compileCmd ["cc", "-c", "d/a.c", "-o", "bin/a.o"],
        .cacheSave [⟨"d/a.c", 7⟩],
        .linkCmd ["cc", "bin/a.o", "-o", "bin/app"]] : List BuildEvent).take 2
  := by decide

/-- C3 (amended): every successful `build_app` run ends either with the
cache persisted and THEN the link command as the final two events (after
only per-file compile events), or — when zero output paths were recorded —
with only the "Nothing to rebuild" report, the cache file untouched. -/
theorem c3_save_precedes_link (fs : Filesystem) (cc : String)
    (cfg : build_app_config_t) (c : build_cache_t)
    (cf : build_cache_t) (evs : List BuildEvent)
    (hrun : build_app fs cc cfg c = .ok (cf, evs)) :
    ∃ pre, (∀ e ∈ pre, ∃ a, e = BuildEvent.compileCmd a) ∧
      ((∃ args, evs = pre ++ [BuildEvent.cacheSave cf, BuildEvent.linkCmd args]) ∨
        (pre = [] ∧ evs = [BuildEvent.info "Nothing to rebuild"])) := by
  rw [build_app] at hrun
  cases hd : build_app_dirs fs cc cfg cfg.srcs c cfg.rebuild_all [] with
  | error e =>
      simp only [hd] at hrun
      exact absurd hrun (by simp)
  | ok q =>
      obtain ⟨c1, ra1, ofs1, evs1⟩ := q
      simp only [hd] at hrun
      have hcomp := build_app_dirs_evs_compile fs cc cfg cfg.srcs c
        cfg.rebuild_all [] _ _ _ _ hd
      by_cases he : ofs1.isEmpty
      · rw [if_pos he] at hrun
        cases hofs1 : ofs1 with
        | cons o os =>
            rw [hofs1] at he
            simp at he
        | nil =>
            obtain ⟨added, hofs, hlen⟩ := build_app_dirs_ofs fs cc cfg cfg.srcs c
              cfg.rebuild_all [] _ _ _ _ hd
            rw [hofs1] at hofs
            have hadded : added = [] := by simpa using hofs.symm
            have hevs1 : evs1 = [] := by
              rw [hadded] at hlen
              simpa using List.eq_nil_of_length_eq_zero (by simpa using hlen)
            simp only [Except.ok.injEq, Prod.mk.injEq] at hrun
            obtain ⟨-, hevs⟩ := hrun
            refine ⟨[], by simp, Or.inr ⟨rfl, ?_⟩⟩
            rw [← hevs, hevs1]
            rfl
      · rw [if_neg he] at hrun
        simp only [Except.ok.injEq, Prod.mk.injEq] at hrun
        obtain ⟨hcf, hevs⟩ := hrun
        refine ⟨evs1, hcomp, Or.inl ⟨cc :: ofs1 ++ ["-o", cfg.out], ?_⟩⟩
        rw [← hevs, hcf]

theorem c3_save_precedes_link_witness :
    ∃ pre, (∀ e ∈ pre, ∃ a, e = BuildEvent.compileCmd a) ∧
      ((∃ args, [BuildEvent.compileCmd ["cc", "-c", "d/a.c", "-o", "bin/a.o"],
          BuildEvent.cacheSave [⟨"d/a.c", 7⟩],
          BuildEvent.linkCmd ["cc", "bin/a.o", "-o", "bin/app"]]
          = pre ++ [BuildEvent.cacheSave [⟨"d/a.c", 7⟩],
              BuildEvent.linkCmd args]) ∨
        (pre = [] ∧ [BuildEvent.compileCmd ["cc", "-c", "d/a.c", "-o", "bin/a.o"],
          BuildEvent.cacheSave [⟨"d/a.c", 7⟩],
          BuildEvent.linkCmd ["cc", "bin/a.o", "-o", "bin/app"]]
          = [BuildEvent.info "Nothing to rebuild"])) :=
  c3_save_precedes_link ⟨[("d", ["a.c"])], [("d/a.c", 7)]⟩ "cc"
    ⟨"c", "h", "bin", "bin/app", ["d"], false⟩ [⟨"d/a.c", 5⟩]
    [⟨"d/a.c", 7⟩]
    [.compileCmd ["cc", "-c", "d/a.c", "-o", "bin/a.o"],
     .cacheSave [⟨"d/a.c", 7⟩],
     .linkCmd ["cc", "bin/a.o", "-o", "bin/app"]] (by decide)

/-- C10: with every configured source directory enumerable and every
header/source entry statable, a `build_app` invocation ends with the
`assert(o_files_count < 128)` failing if and only if the configured
directories together contain more than 128 entries with the configured
source extension; with at most 128 such entries the bounded `o_files`
array is never overrun. -/
theorem c10_assert_iff_overflow (fs : Filesystem) (cc : String)
    (cfg : build_app_config_t) (c : build_cache_t)
    (hop : ∀ d ∈ cfg.srcs, (fs.openDir d).isSome)
    (hst : ∀ d ∈ cfg.srcs, ∀ name ∈ (fs.openDir d).getD [],
      (fs_ext name = cfg.header_ext ∨ fs_ext name = cfg.src_ext) →
      (fs.fs_time (fs_join_path d name)).isSome) :
    (build_app fs cc cfg c = .error .assertFail ↔
      128 < total_src_count fs cfg cfg.srcs) := by
  constructor
  · intro h
    by_contra hle
    push_neg at hle
    obtain ⟨c', ra', ofs', evs', hd, -⟩ := build_app_dirs_total fs cc cfg cfg.srcs
      c cfg.rebuild_all [] hop hst (by simpa using hle)
    rw [build_app] at h
    simp only [hd] at h
    by_cases he : ofs'.isEmpty
    · rw [if_pos he] at h
      simp at h
    · rw [if_neg he] at h
      simp at h
  · intro h
    rw [build_app]
    rw [build_app_dirs_assert fs cc cfg cfg.srcs c cfg.rebuild_all [] hop hst
      (by simp) (by simpa using h)]

theorem c10_assert_iff_overflow_witness :
    ¬ (build_app ⟨[("d", ["a.c"])], [("d/a.c", 5)]⟩ "cc"
      ⟨"c", "h", "bin", "bin/app", ["d"], false⟩ []
      = .error .assertFail) :=
  fun h => absurd
    ((c10_assert_iff_overflow ⟨[("d", ["a.c"])], [("d/a.c", 5)]⟩ "cc"
      ⟨"c", "h", "bin", "bin/app", ["d"], false⟩ []
      (by decide) (by decide)).mp h)
    (by decide)
